import Mathlib

/-!
# Pizza catalog and order engine (niklil/isf-demo)

A shallow embedding of `src/pizza_types.c` (catalog store, default seed) and of
`C-demo/src/pizza_interface.c` (order entry, bill split), with the properties the
specification states about them.

Modelling conventions:

* a C string is a `List Char` without the terminating NUL; a file is the list of its bytes;
* `double` values are modelled by exact rationals (`ℚ`): the arithmetic, the comparison, the
  `%.2f` output conversion and the `%lf` input conversion are the exact ones, so binary rounding
  error, infinities and NaN are outside the model;
* `int` values that never leave a small range (`count`, `item_count`) are natural numbers, the
  others (`available`, `quantity`, `num_people`) are integers;
* a fixed-size array is a function from indices to elements, the slots at and above the length
  field hold whatever was there before (the structs are uninitialised locals of `main`);
* `printf` output is kept only where a property is stated about it, as a value or a log entry.
-/

namespace Pizza

/-! ## Data model (`include/pizza_types.h`) -/

/-- Constant `MAX_PIZZA_NAME_LENGTH`: size of the name buffers, terminator included. -/
def MAX_PIZZA_NAME_LENGTH : Nat := 50

/-- Constant `MAX_PIZZA_TYPES`: number of slots of the catalog and of the order. -/
def MAX_PIZZA_TYPES : Nat := 20

/-- Struct `PizzaType`: one catalog entry. -/
structure PizzaType where
  name : List Char
  price : ℚ
  available : Int
deriving DecidableEq, Inhabited

/-- Struct `PizzaMenu`: the slots and the number of slots in use. -/
structure PizzaMenu where
  pizzas : Nat → PizzaType
  count : Nat

/-- Array store `a[i] = v`. -/
def store {α : Type} (a : Nat → α) (i : Nat) (v : α) : Nat → α :=
  fun j => if j = i then v else a j

/-- The entries of a catalog: the slots `0 .. count - 1` in order. -/
def PizzaMenu.entries (menu : PizzaMenu) : List PizzaType :=
  (List.range menu.count).map menu.pizzas

/-! ## Case-insensitive comparison (libc) -/

/-- Library function `tolower` in the C locale: only `A` .. `Z` are changed. -/
def tolower (c : Char) : Char := c.toLower

/-- Library function `strcasecmp`: zero when the strings agree after `tolower`, otherwise the
difference of the first two characters that disagree (the end of a string counts as
character 0). -/
def strcasecmp : List Char → List Char → Int
  | [], [] => 0
  | [], b :: _ => 0 - ((tolower b).toNat : Int)
  | a :: _, [] => ((tolower a).toNat : Int)
  | a :: as, b :: bs =>
    if tolower a = tolower b then strcasecmp as bs
    else ((tolower a).toNat : Int) - ((tolower b).toNat : Int)

/-! ## Catalog operations (`src/pizza_types.c`) -/

/-- The loop of `find_pizza_by_name`: `todo` slots remain to be looked at, starting at `i`. -/
def find_loop (pizzas : Nat → PizzaType) (name : List Char) : Nat → Nat → Int
  | 0, _ => -1
  | todo + 1, i =>
    if strcasecmp (pizzas i).name name = 0 then (i : Int)
    else find_loop pizzas name todo (i + 1)

/-- Function `find_pizza_by_name`: index of the first entry whose name equals `name` ignoring case,
or `-1`. -/
def find_pizza_by_name (menu : PizzaMenu) (name : List Char) : Int :=
  find_loop menu.pizzas name menu.count 0

/-- What `add_pizza_type` prints. -/
inductive AddMsg
  | full
  | exists_already
  | added
deriving DecidableEq

/-- Function `add_pizza_type`: refuses a full catalog and a name already present, otherwise
writes the new entry into slot `count` and increments `count`. `strcpy` is modelled as an
assignment, which is what it does for names shorter than the buffer. -/
def add_pizza_type (menu : PizzaMenu) (name : List Char) (price : ℚ) : PizzaMenu × AddMsg :=
  if menu.count ≥ MAX_PIZZA_TYPES then (menu, AddMsg.full)
  else if find_pizza_by_name menu name ≠ -1 then (menu, AddMsg.exists_already)
  else
    ({ pizzas := store menu.pizzas menu.count { name := name, price := price, available := 1 },
       count := menu.count + 1 }, AddMsg.added)

/-- The shifting loop of `remove_pizza_type`: `todo` assignments `pizzas[i] = pizzas[i + 1]`
remain, starting at `i`. -/
def shift_loop : Nat → Nat → (Nat → PizzaType) → (Nat → PizzaType)
  | 0, _, pizzas => pizzas
  | todo + 1, i, pizzas => shift_loop todo (i + 1) (store pizzas i (pizzas (i + 1)))

/-- What `remove_pizza_type` prints. -/
inductive RemoveMsg
  | not_found
  | removed
deriving DecidableEq

/-- Function `remove_pizza_type`: looks the name up, and when it is found shifts the later
entries one slot down (`for (i = index; i < count - 1; i++)`) and decrements `count`. -/
def remove_pizza_type (menu : PizzaMenu) (name : List Char) : PizzaMenu × RemoveMsg :=
  let index := find_pizza_by_name menu name
  if index = -1 then (menu, RemoveMsg.not_found)
  else
    ({ pizzas := shift_loop (menu.count - 1 - index.toNat) index.toNat menu.pizzas,
       count := menu.count - 1 }, RemoveMsg.removed)

/-- Function `init_default_menu`: resets `count` and adds the six default pizzas. -/
def init_default_menu (menu : PizzaMenu) : PizzaMenu :=
  let m0 : PizzaMenu := { menu with count := 0 }
  let m1 := (add_pizza_type m0 "Margherita".toList 10).1
  let m2 := (add_pizza_type m1 "Pepperoni".toList (25 / 2)).1
  let m3 := (add_pizza_type m2 "Hawaiian".toList 13).1
  let m4 := (add_pizza_type m3 "Quattro Stagioni".toList (29 / 2)).1
  let m5 := (add_pizza_type m4 "Vegetarian".toList (23 / 2)).1
  (add_pizza_type m5 "Meat Lovers".toList 16).1

/-! ## Text conversions (libc `printf`, `fgets`, `sscanf`) -/

/-- The character of a decimal digit. -/
def digitChar : Nat → Char
  | 0 => '0'
  | 1 => '1'
  | 2 => '2'
  | 3 => '3'
  | 4 => '4'
  | 5 => '5'
  | 6 => '6'
  | 7 => '7'
  | 8 => '8'
  | _ => '9'

/-- Decimal digits of `n`, most significant first; `fuel` bounds their number. -/
def decDigits : Nat → Nat → List Char
  | 0, _ => []
  | fuel + 1, n =>
    if n < 10 then [digitChar n] else decDigits fuel (n / 10) ++ [digitChar (n % 10)]

/-- Decimal numeral of a natural number. -/
def fmtNat (n : Nat) : List Char := decDigits (n + 1) n

/-- Output conversion `%d`. -/
def fmt_d (i : Int) : List Char :=
  if i < 0 then '-' :: fmtNat i.natAbs else fmtNat i.natAbs

/-- The magnitude of `q` in hundredths, rounded to nearest, ties to even. -/
def cents (q : ℚ) : Nat :=
  let a := q.num.natAbs * 100
  let f := a / q.den
  let r := a % q.den
  if 2 * r < q.den then f
  else if q.den < 2 * r then f + 1
  else if f % 2 = 0 then f else f + 1

/-- Output conversion `%.2f`: sign, integer part, point, two fraction digits. -/
def fmt_2f (q : ℚ) : List Char :=
  (if q < 0 then ['-'] else []) ++ fmtNat (cents q / 100) ++
    ['.', digitChar (cents q / 10 % 10), digitChar (cents q % 10)]

/-- The value a `%.2f` numeral denotes: `q` rounded to two decimals. -/
def round2 (q : ℚ) : ℚ :=
  if q < 0 then -((cents q : ℚ) / 100) else (cents q : ℚ) / 100

/-- Library function `isspace` in the C locale. -/
def isspace (c : Char) : Bool :=
  c = ' ' || c = '\t' || c = '\n' || c = '\x0b' || c = '\x0c' || c = '\r'

/-- Library function `isdigit`. -/
def isdigit (c : Char) : Bool := decide ('0' ≤ c) && decide (c ≤ '9')

/-- Value of a digit character. -/
def digitVal (c : Char) : Nat := c.toNat - 48

/-- Reads the longest run of decimal digits: accumulated value, number of digits read, and the
unread rest. -/
def scanDigits : List Char → Nat → Nat → Nat × Nat × List Char
  | [], acc, k => (acc, k, [])
  | c :: s, acc, k =>
    if isdigit c then scanDigits s (10 * acc + digitVal c) (k + 1) else (acc, k, c :: s)

/-- Reads an optional sign: whether it was a minus, and the unread rest. -/
def scanSign : List Char → Bool × List Char
  | [] => (false, [])
  | c :: s => if c = '-' then (true, s) else if c = '+' then (false, s) else (false, c :: s)

/-- Input conversion `%d`: leading white space, optional sign, at least one decimal digit.
The value is the mathematical one (a numeral outside the range of `int` is undefined behaviour
in C). -/
def scan_d (s : List Char) : Option (Int × List Char) :=
  let sg := scanSign (s.dropWhile isspace)
  let ds := scanDigits sg.2 0 0
  if ds.2.1 = 0 then none
  else some (if sg.1 = true then -(ds.1 : Int) else (ds.1 : Int), ds.2.2)

/-- The optional fraction part of a `%lf` numeral: value and number of the digits after a
point, and the rest. -/
def scanFraction : List Char → Nat × Nat × List Char
  | [] => (0, 0, [])
  | c :: s => if c = '.' then scanDigits s 0 0 else (0, 0, c :: s)

/-- The digits of a `%lf` numeral, with an optional point: at least one digit in all. -/
def scanMantissa (s : List Char) : Option (ℚ × List Char) :=
  let ip := scanDigits s 0 0
  let fp := scanFraction ip.2.2
  if ip.2.1 + fp.2.1 = 0 then none
  else some ((ip.1 : ℚ) + (fp.1 : ℚ) / (10 : ℚ) ^ fp.2.1, fp.2.2)

/-- The optional exponent part of a `%lf` numeral: `none` when an `e` is not followed by an
optionally signed digit sequence (a matching failure), otherwise the exponent and the rest. -/
def scanExponent : List Char → Option (Int × List Char)
  | [] => some (0, [])
  | c :: s =>
    if c = 'e' ∨ c = 'E' then
      let sg := scanSign s
      let ds := scanDigits sg.2 0 0
      if ds.2.1 = 0 then none
      else some (if sg.1 = true then -(ds.1 : Int) else (ds.1 : Int), ds.2.2)
    else some (0, c :: s)

/-- Input conversion `%lf` for decimal numerals: leading white space, optional sign, digits with
an optional point, optional exponent. The value is the exact rational; `inf`, `nan` and
hexadecimal numerals have no value in this model and are not recognised. -/
def scan_lf (s : List Char) : Option (ℚ × List Char) :=
  let sg := scanSign (s.dropWhile isspace)
  match scanMantissa sg.2 with
  | none => none
  | some (m, s1) =>
    match scanExponent s1 with
    | none => none
    | some (e, rest) => some ((if sg.1 = true then -m else m) * (10 : ℚ) ^ e, rest)

/-- The loop of `fgets`: at most `room` bytes, stopping after a newline. -/
def fgets_loop : Nat → List Char → List Char × List Char
  | 0, s => ([], s)
  | _ + 1, [] => ([], [])
  | room + 1, c :: s =>
    if c = '\n' then ([c], s)
    else ((fgets_loop room s).1.cons c, (fgets_loop room s).2)

/-- Library call `fgets(line, size, file)`: `none` at end of file, otherwise the bytes read (at most
`size - 1`, up to and including the first newline) and the unread rest of the file. -/
def fgets (size : Nat) (file : List Char) : Option (List Char × List Char) :=
  if file = [] then none else some (fgets_loop (size - 1) file)

/-- Conversion `%49[^,]`: the longest run of at most 49 characters other than a comma. -/
def scan_name (s : List Char) : List Char × List Char :=
  (((s.takeWhile (fun c => c ≠ ',')).take (MAX_PIZZA_NAME_LENGTH - 1)),
    s.drop ((s.takeWhile (fun c => c ≠ ',')).take (MAX_PIZZA_NAME_LENGTH - 1)).length)

/-- The call `sscanf(line, "%49[^,],%lf,%d", name, &price, &available)`: `some` of the three values
exactly when the call returns 3. The buffer is read as a C string, up to its first NUL. -/
def sscanf_entry (line : List Char) : Option PizzaType :=
  let nm := scan_name (line.takeWhile (fun c => c ≠ '\x00'))
  if nm.1 = [] then none
  else
    match nm.2 with
    | [] => none
    | c :: s2 =>
      if c = ',' then
        match scan_lf s2 with
        | none => none
        | some (price, s3) =>
          match s3 with
          | [] => none
          | c3 :: s4 =>
            if c3 = ',' then
              match scan_d s4 with
              | none => none
              | some (available, _) =>
                some { name := nm.1, price := price, available := available }
            else none
      else none

/-- The call `fprintf(file, "%s,%.2f,%d\n", name, price, available)`. -/
def fprintf_entry (p : PizzaType) : List Char :=
  p.name ++ ',' :: (fmt_2f p.price ++ ',' :: (fmt_d p.available ++ ['\n']))

/-! ## Catalog persistence (`src/pizza_types.c`) -/

/-- The reading loop of `load_pizza_menu`,
`while (fgets(line, sizeof(line), file) && menu->count < MAX_PIZZA_TYPES)`; every iteration
consumes at least one byte, `fuel` bounds the number of iterations. -/
def load_loop : Nat → List Char → PizzaMenu → PizzaMenu
  | 0, _, menu => menu
  | fuel + 1, file, menu =>
    match fgets 100 file with
    | none => menu
    | some (line, rest) =>
      if menu.count < MAX_PIZZA_TYPES then
        match sscanf_entry line with
        | some p =>
          load_loop fuel rest
            { pizzas := store menu.pizzas menu.count p, count := menu.count + 1 }
        | none => load_loop fuel rest menu
      else menu

/-- Function `load_pizza_menu`: `file` is `none` when `fopen` fails, otherwise the content of
the file. Returns the menu and the return value. -/
def load_pizza_menu (menu : PizzaMenu) (file : Option (List Char)) : PizzaMenu × Int :=
  match file with
  | none => (init_default_menu menu, 0)
  | some content => (load_loop (content.length + 1) content { menu with count := 0 }, 1)

/-- The writing loop of `save_pizza_menu`: `todo` entries remain, starting at `i`. -/
def save_loop (pizzas : Nat → PizzaType) : Nat → Nat → List Char
  | 0, _ => []
  | todo + 1, i => fprintf_entry (pizzas i) ++ save_loop pizzas todo (i + 1)

/-- Function `save_pizza_menu`: `writable` tells whether `fopen(filename, "w")` succeeds.
Returns the new content of the file (`none` when nothing was written) and the return value. -/
def save_pizza_menu (menu : PizzaMenu) (writable : Bool) : Option (List Char) × Int :=
  if writable then (some (save_loop menu.pizzas menu.count 0), 1) else (none, 0)

/-! ## Order engine (`C-demo/src/pizza_interface.c`, `include/pizza_interface.h`)

Standard input is modelled by the outcomes of the successive `scanf("%d", ...)` calls made on
it: `some v` when an integer `v` was read, `none` when the conversion failed (the code then
discards the offending input with `clear_input_buffer`). The empty list is the end of input, at
which every further `scanf` fails. -/

/-- Struct `OrderItem`: one line of an order. -/
structure OrderItem where
  pizza_name : List Char
  quantity : Int
  unit_price : ℚ
deriving DecidableEq, Inhabited

/-- Struct `PizzaOrder`: the lines, their number, the running total and the party size. -/
structure PizzaOrder where
  items : Nat → OrderItem
  item_count : Nat
  total_amount : ℚ
  num_people : Int

/-- The stored line items: the slots `0 .. item_count - 1` in order. -/
def PizzaOrder.lines (order : PizzaOrder) : List OrderItem :=
  (List.range order.item_count).map order.items

/-- One `scanf("%d", &x)` on standard input: the value read, if any, and the remaining input. -/
def scanf_d : List (Option Int) → Option Int × List (Option Int)
  | [] => (none, [])
  | r :: rest => (r, rest)

/-- Function `get_user_choice(min, max)`: repeats `scanf` until an integer within `[min, max]`
is read.
At the end of input the C loop never exits; that is `none`. -/
def get_user_choice (min max : Int) : List (Option Int) → Option (Int × List (Option Int))
  | [] => none
  | none :: rest => get_user_choice min max rest
  | some choice :: rest =>
    if choice < min ∨ choice > max then get_user_choice min max rest else some (choice, rest)

/-- What the ordering loop prints about a line item. -/
inductive OrderMsg
  | not_available (name : List Char)
  | invalid_quantity
  | overflow
  | added (quantity : Int) (name : List Char)
deriving DecidableEq

/-- The variables of the ordering loop of `create_order`, with the unread input and the
messages printed so far. -/
structure OrderState where
  order : PizzaOrder
  continue_ordering : Int
  input : List (Option Int)
  log : List OrderMsg

/-- How one iteration of the ordering loop ends: waiting for input that never comes, at the
`break`, or at the end of the body or a `continue`. -/
inductive Iteration
  | blocked (st : OrderState)
  | left (st : OrderState)
  | next (st : OrderState)

/-- The body of the ordering loop of `create_order`. `MAX_QUANTITY` is a constant of a header
that is not part of the sources at hand. -/
def order_iteration (MAX_QUANTITY : Int) (menu : PizzaMenu) (st : OrderState) : Iteration :=
  match get_user_choice 0 menu.count st.input with
  | none => Iteration.blocked st
  | some (pizza_id, in1) =>
    if pizza_id = 0 then Iteration.left { st with continue_ordering := 0, input := in1 }
    else
      let pizza_index := (pizza_id - 1).toNat
      if (menu.pizzas pizza_index).available = 0 then
        Iteration.next { st with
          input := in1, log := st.log ++ [OrderMsg.not_available (menu.pizzas pizza_index).name] }
      else
        match scanf_d in1 with
        | (none, in2) =>
          Iteration.next { st with input := in2, log := st.log ++ [OrderMsg.invalid_quantity] }
        | (some quantity, in2) =>
          if quantity ≤ 0 ∨ quantity > MAX_QUANTITY then
            Iteration.next { st with input := in2, log := st.log ++ [OrderMsg.invalid_quantity] }
          else
            let item_total : ℚ := (quantity : ℚ) * (menu.pizzas pizza_index).price
            if st.order.total_amount + item_total < st.order.total_amount then
              Iteration.next { st with input := in2, log := st.log ++ [OrderMsg.overflow] }
            else
              let order : PizzaOrder :=
                { st.order with
                  items := store st.order.items st.order.item_count
                    { pizza_name :=
                        (menu.pizzas pizza_index).name.take (MAX_PIZZA_NAME_LENGTH - 1),
                      quantity := quantity,
                      unit_price := (menu.pizzas pizza_index).price },
                  total_amount := st.order.total_amount + item_total,
                  item_count := st.order.item_count + 1 }
              let log := st.log ++ [OrderMsg.added quantity (menu.pizzas pizza_index).name]
              match get_user_choice 0 1 in2 with
              | none =>
                Iteration.blocked { st with order := order, input := in2, log := log }
              | some (c, in3) =>
                Iteration.next { order := order, continue_ordering := c, input := in3, log := log }

/-- The ordering loop `while (continue_ordering && order->item_count < MAX_PIZZA_TYPES)`. The
result is the state reached and whether the loop was left; `fuel` bounds the number of
iterations, each of which reads at least one input. -/
def order_loop (MAX_QUANTITY : Int) (menu : PizzaMenu) : Nat → OrderState → OrderState × Bool
  | 0, st => (st, false)
  | fuel + 1, st =>
    if st.continue_ordering ≠ 0 ∧ st.order.item_count < MAX_PIZZA_TYPES then
      match order_iteration MAX_QUANTITY menu st with
      | Iteration.blocked st1 => (st1, false)
      | Iteration.left st1 => (st1, true)
      | Iteration.next st1 => order_loop MAX_QUANTITY menu fuel st1
    else (st, true)

/-- The state in which `create_order` enters its loop. -/
def order_start (order : PizzaOrder) (input : List (Option Int)) : OrderState :=
  { order := { order with item_count := 0, total_amount := 0 },
    continue_ordering := 1, input := input, log := [] }

/-- Function `create_order`: `none` when the call never returns (input ends inside
`get_user_choice`),
otherwise the order, the unread input and the line item messages. -/
def create_order (MAX_QUANTITY : Int) (menu : PizzaMenu) (order : PizzaOrder)
    (input : List (Option Int)) : Option (PizzaOrder × List (Option Int) × List OrderMsg) :=
  match order_loop MAX_QUANTITY menu (input.length + 1) (order_start order input) with
  | (_, false) => none
  | (st, true) =>
    if st.order.item_count = 0 then some (st.order, st.input, st.log)
    else
      match scanf_d st.input with
      | (none, rest) => some ({ st.order with num_people := 1 }, rest, st.log)
      | (some n, rest) =>
        if n ≤ 0 then some ({ st.order with num_people := 1 }, rest, st.log)
        else some ({ st.order with num_people := n }, rest, st.log)

/-- What `calculate_bill_split` prints: the error line, or the three result lines. -/
inductive SplitOutput
  | invalid
  | results (total : ℚ) (people : Int) (cost_per_person : ℚ)
deriving DecidableEq

/-- Division of `double`s as used for the split; a zero divisor is reported as `none`. -/
def divide (a b : ℚ) : Option ℚ := if b = 0 then none else some (a / b)

/-- Function `calculate_bill_split`: `none` would be a division by zero. -/
def calculate_bill_split (order : PizzaOrder) : Option SplitOutput :=
  if order.item_count = 0 ∨ order.num_people ≤ 0 then some SplitOutput.invalid
  else
    (divide order.total_amount (order.num_people : ℚ)).map
      (fun cost_per_person =>
        SplitOutput.results order.total_amount order.num_people cost_per_person)

/-- The sum of `quantity × unit_price` over the stored line items, added up from zero in the
order of the slots. -/
def PizzaOrder.lines_total (order : PizzaOrder) : ℚ :=
  order.lines.foldl (fun sum it => sum + (it.quantity : ℚ) * it.unit_price) 0

/-- Number of line items reported as added. -/
def accepted (log : List OrderMsg) : Nat :=
  (log.filter (fun m => match m with
    | OrderMsg.added _ _ => true
    | _ => false)).length

/-! ## Vocabulary of the properties -/

/-- Names equal ignoring case, as `strcasecmp` decides it. -/
def same_name (a b : List Char) : Prop := strcasecmp a b = 0

instance (a b : List Char) : Decidable (same_name a b) := by
  unfold same_name; infer_instance

/-- The catalog invariant on names: no two entries have names equal ignoring case. -/
def unique_names (menu : PizzaMenu) : Prop :=
  menu.entries.Pairwise (fun p q => ¬ same_name p.name q.name)

instance (menu : PizzaMenu) : Decidable (unique_names menu) := by
  unfold unique_names; infer_instance

/-- The value of a digit string read from the left. -/
def digitsValue (acc : Nat) (ds : List Char) : Nat :=
  ds.foldl (fun a c => 10 * a + digitVal c) acc

/-- The lines of a file, each with its newline; the last one may lack it. -/
def lines : List Char → List (List Char)
  | [] => []
  | c :: s =>
    if c = '\n' then [c] :: lines s
    else
      match lines s with
      | [] => [[c]]
      | l :: ls => (c :: l) :: ls

/-- A name the file format can carry: a non-empty C string without comma or newline. -/
def storable_name (name : List Char) : Prop :=
  name ≠ [] ∧ ∀ c ∈ name, c ≠ ',' ∧ c ≠ '\n' ∧ c ≠ '\x00'

instance (name : List Char) : Decidable (storable_name name) := by
  unfold storable_name; infer_instance

/-- The text of a catalog line before its newline. -/
def entry_body (p : PizzaType) : List Char :=
  p.name ++ ',' :: (fmt_2f p.price ++ ',' :: fmt_d p.available)

/-- The six entries of the default catalog. -/
def default_entries : List PizzaType :=
  [ { name := "Margherita".toList, price := 10, available := 1 },
    { name := "Pepperoni".toList, price := 25 / 2, available := 1 },
    { name := "Hawaiian".toList, price := 13, available := 1 },
    { name := "Quattro Stagioni".toList, price := 29 / 2, available := 1 },
    { name := "Vegetarian".toList, price := 23 / 2, available := 1 },
    { name := "Meat Lovers".toList, price := 16, available := 1 } ]

/-- What reading back makes of an entry: the price is the written two-decimal value. -/
def reloaded (p : PizzaType) : PizzaType :=
  { name := p.name, price := round2 p.price, available := p.available }

/-- The order invariant: the total is the sum over the stored lines, and there are as many
stored lines as items reported as added. -/
def order_invariant (st : OrderState) : Prop :=
  st.order.total_amount = st.order.lines_total ∧ st.order.item_count = accepted st.log

/-- The state an iteration ends in. -/
def Iteration.state : Iteration → OrderState
  | Iteration.blocked st => st
  | Iteration.left st => st
  | Iteration.next st => st

/-- A catalog mutation of a session, as `manage_pizza_menu` issues them. -/
inductive Mutation
  | add (name : List Char) (price : ℚ)
  | remove (name : List Char)

/-- Runs a sequence of `add_pizza_type` and `remove_pizza_type` calls on a catalog. -/
def run_mutations : PizzaMenu → List Mutation → PizzaMenu
  | menu, [] => menu
  | menu, Mutation.add name price :: rest =>
    run_mutations (add_pizza_type menu name price).1 rest
  | menu, Mutation.remove name :: rest => run_mutations (remove_pizza_type menu name).1 rest

/-- The catalog invariant of the specification: at most 20 entries, and no two of them with
names equal ignoring case. -/
def catalog_invariant (menu : PizzaMenu) : Prop :=
  menu.count ≤ MAX_PIZZA_TYPES ∧ unique_names menu

instance (menu : PizzaMenu) : Decidable (catalog_invariant menu) := by
  unfold catalog_invariant; infer_instance

/-! ## Sample inputs -/

/-- A catalog with the given entries in its first slots. -/
def menu_of (entries : List PizzaType) : PizzaMenu :=
  { pizzas := fun i => entries.getD i { name := [], price := 0, available := 0 },
    count := entries.length }

/-- A one-entry catalog whose name contains a comma. -/
def comma_menu : PizzaMenu :=
  menu_of [{ name := "Ham, Cheese".toList, price := 12, available := 1 }]

/-- A three-entry catalog with prices that are not multiples of a hundredth. -/
def sample_menu : PizzaMenu :=
  menu_of [{ name := "Margherita".toList, price := 10, available := 1 },
    { name := "Quattro Formaggi".toList, price := 1299 / 100 + 1 / 8, available := 0 },
    { name := "calzone (XL)".toList, price := 1 / 3, available := -7 }]

/-- A full catalog: twenty entries `P0` .. `P19`. -/
def full_menu : PizzaMenu :=
  { pizzas := fun i => { name := 'P' :: fmtNat i, price := 9, available := 1 }, count := 20 }

/-- The catalog `[A, B, C]`. -/
def abc_menu : PizzaMenu :=
  menu_of [{ name := "A".toList, price := 8, available := 1 },
    { name := "B".toList, price := 9, available := 1 },
    { name := "C".toList, price := 10, available := 0 }]

/-- An order whose fields hold left-over values, as an uninitialised local does. -/
def stale_order : PizzaOrder :=
  { items := fun _ => { pizza_name := [], quantity := 0, unit_price := 0 },
    item_count := 7, total_amount := 99, num_people := 0 }

/-- An input session: three Pepperoni, then a rejected choice, a rejected quantity, one Meat
Lovers, and four people. -/
def sample_input : List (Option Int) :=
  [some 2, some 3, some 1, none, some 9, some 1, some 0, some 6, some 1, some 0, some 4]

/-- A one-entry catalog whose name is empty. -/
def empty_name_menu : PizzaMenu := menu_of [{ name := [], price := 5, available := 1 }]

/-- A one-entry catalog whose name has a line break inside. -/
def newline_name_menu : PizzaMenu :=
  menu_of [{ name := "Tonno\nCipolla".toList, price := 5, available := 1 }]

/-- A one-entry catalog with a 49-character name and the price `2 ^ 150`, whose line takes 102
bytes. -/
def wide_line_menu : PizzaMenu :=
  menu_of [{ name := List.replicate 49 'w', price := 2 ^ 150, available := 1 }]

/-- A catalog file with the same name twice, in different case. -/
def duplicate_file : List Char := "Margherita,10.00,1\nMARGHERITA,12.50,0\n".toList

/-- A catalog built in a session from the empty one: `Salami`, then `salami,9,0`, a name with
commas that `manage_pizza_menu` accepts. -/
def alias_menu : PizzaMenu :=
  run_mutations (menu_of [])
    [Mutation.add "Salami".toList 8, Mutation.add "salami,9,0".toList 7]

/-! ## Supporting lemmas -/

theorem entries_length (menu : PizzaMenu) : menu.entries.length = menu.count := by
  simp [PizzaMenu.entries]

theorem mem_entries (menu : PizzaMenu) (p : PizzaType) :
    p ∈ menu.entries ↔ ∃ j, j < menu.count ∧ menu.pizzas j = p := by
  simp [PizzaMenu.entries]

theorem find_loop_spec (pizzas : Nat → PizzaType) (name : List Char) :
    ∀ todo i,
      (find_loop pizzas name todo i = -1 ∧
        ∀ j, i ≤ j → j < i + todo → ¬ same_name (pizzas j).name name) ∨
      (∃ k : Nat, find_loop pizzas name todo i = (k : Int) ∧ i ≤ k ∧ k < i + todo ∧
        same_name (pizzas k).name name ∧
        ∀ j, i ≤ j → j < k → ¬ same_name (pizzas j).name name) := by
  intro todo
  induction todo with
  | zero =>
    intro i
    left
    refine ⟨rfl, ?_⟩
    intro j h1 h2
    omega
  | succ n ih =>
    intro i
    by_cases h : strcasecmp (pizzas i).name name = 0
    · right
      refine ⟨i, ?_, le_refl i, by omega, h, ?_⟩
      · simp [find_loop, h]
      · intro j h1 h2
        omega
    · rcases ih (i + 1) with ⟨h1, h2⟩ | ⟨k, h1, h2, h3, h4, h5⟩
      · left
        refine ⟨?_, ?_⟩
        · simp [find_loop, h, h1]
        · intro j hj1 hj2
          by_cases hji : j = i
          · subst hji
            exact h
          · exact h2 j (by omega) (by omega)
      · right
        refine ⟨k, ?_, by omega, by omega, h4, ?_⟩
        · simp [find_loop, h, h1]
        · intro j hj1 hj2
          by_cases hji : j = i
          · subst hji
            exact h
          · exact h5 j (by omega) hj2

theorem find_eq_neg_one_iff (menu : PizzaMenu) (name : List Char) :
    find_pizza_by_name menu name = -1 ↔ ∀ p ∈ menu.entries, ¬ same_name p.name name := by
  unfold find_pizza_by_name
  rcases find_loop_spec menu.pizzas name menu.count 0 with
    ⟨h1, h2⟩ | ⟨k, h1, h2, h3, h4, h5⟩
  · simp only [h1, true_iff]
    intro p hp
    obtain ⟨j, hj, rfl⟩ := (mem_entries menu p).1 hp
    exact h2 j (by omega) (by omega)
  · rw [h1]
    constructor
    · intro h
      omega
    · intro h
      exact absurd h4 (h _ ((mem_entries menu _).2 ⟨k, by omega, rfl⟩))

theorem entries_store_count (menu : PizzaMenu) (p : PizzaType) :
    PizzaMenu.entries { pizzas := store menu.pizzas menu.count p, count := menu.count + 1 } =
      menu.entries ++ [p] := by
  simp only [PizzaMenu.entries, List.range_succ, List.map_append, List.map_cons, List.map_nil]
  congr 1
  · apply List.map_congr_left
    intro j hj
    have := List.mem_range.1 hj
    simp [store]
    omega
  · simp [store]

theorem shift_loop_apply (todo : Nat) :
    ∀ (i : Nat) (pizzas : Nat → PizzaType) (j : Nat),
      shift_loop todo i pizzas j =
        if i ≤ j ∧ j < i + todo then pizzas (j + 1) else pizzas j := by
  induction todo with
  | zero =>
    intro i pizzas j
    have : ¬ (i ≤ j ∧ j < i + 0) := by omega
    rw [shift_loop, if_neg this]
  | succ n ih =>
    intro i pizzas j
    rw [shift_loop, ih]
    by_cases h1 : i + 1 ≤ j ∧ j < i + 1 + n
    · have h2 : i ≤ j ∧ j < i + (n + 1) := by omega
      have h3 : j + 1 ≠ i := by omega
      simp [h1, h2, store, h3]
    · by_cases h4 : j = i
      · subst h4
        simp [store]
      · have h2 : ¬ (i ≤ j ∧ j < i + (n + 1)) := by omega
        simp [h1, h2, store, h4]

theorem eraseP_eq_eraseIdx_first {α : Type} (p : α → Bool) :
    ∀ (l : List α) (k : Nat) (hk : k < l.length), p l[k] = true →
      (∀ j (hj : j < l.length), j < k → p l[j] = false) → l.eraseP p = l.eraseIdx k := by
  intro l
  induction l with
  | nil => intro k hk; simp at hk
  | cons a t ih =>
    intro k hk hp hnot
    cases k with
    | zero =>
      simp at hp
      simp [hp]
    | succ k =>
      have ha : p a = false := hnot 0 (by simp) (by omega)
      have hk2 : k < t.length := by simpa using hk
      rw [List.eraseP_cons_of_neg (by simp [ha]), List.eraseIdx_cons_succ]
      congr 1
      apply ih k hk2
      · simpa using hp
      · intro j hj hjk
        have := hnot (j + 1) (by simpa using hj) (by omega)
        simpa using this

theorem digitChar_isdigit (d : Nat) : isdigit (digitChar d) = true := by
  unfold digitChar
  split <;> decide

theorem digitVal_digitChar (d : Nat) (h : d < 10) : digitVal (digitChar d) = d := by
  interval_cases d <;> decide

theorem isdigit_props (c : Char) (h : isdigit c = true) :
    c ≠ '\x00' ∧ c ≠ '\n' ∧ c ≠ ',' ∧ c ≠ '-' ∧ c ≠ '+' ∧ c ≠ '.' ∧
      isspace c = false := by
  refine ⟨?_, ?_, ?_, ?_, ?_, ?_, ?_⟩
  any_goals (intro h2; subst h2; revert h; decide)
  cases hs : isspace c with
  | false => rfl
  | true =>
    simp only [isspace, Bool.or_eq_true, decide_eq_true_eq] at hs
    rcases hs with ((((hs | hs) | hs) | hs) | hs) | hs <;> (subst hs; revert h; decide)

theorem decDigits_isdigit :
    ∀ (fuel n : Nat) (c : Char), c ∈ decDigits fuel n → isdigit c = true := by
  intro fuel
  induction fuel with
  | zero => intro n c h; simp [decDigits] at h
  | succ f ih =>
    intro n c h
    unfold decDigits at h
    split at h
    · rw [List.mem_singleton] at h
      subst h
      exact digitChar_isdigit n
    · rw [List.mem_append, List.mem_singleton] at h
      rcases h with h | h
      · exact ih _ c h
      · subst h
        exact digitChar_isdigit _

theorem decDigits_ne_nil (fuel n : Nat) : decDigits (fuel + 1) n ≠ [] := by
  unfold decDigits
  split <;> simp

theorem digitsValue_decDigits :
    ∀ (fuel n : Nat), n < fuel → digitsValue 0 (decDigits fuel n) = n := by
  intro fuel
  induction fuel with
  | zero => intro n h; omega
  | succ f ih =>
    intro n h
    unfold decDigits
    split
    · rename_i h1
      simp [digitsValue, digitVal_digitChar n h1]
    · rename_i h1
      have h2 : n / 10 < f := by omega
      have h3 := ih (n / 10) h2
      simp only [digitsValue] at h3
      simp only [digitsValue, List.foldl_append, List.foldl_cons, List.foldl_nil, h3]
      rw [digitVal_digitChar _ (Nat.mod_lt _ (by norm_num))]
      omega

theorem scanDigits_append : ∀ (ds rest : List Char) (acc k : Nat),
    (∀ c ∈ ds, isdigit c = true) →
    scanDigits (ds ++ rest) acc k = scanDigits rest (digitsValue acc ds) (k + ds.length) := by
  intro ds
  induction ds with
  | nil => intro rest acc k _; simp [digitsValue]
  | cons d ds ih =>
    intro rest acc k h
    have hd : isdigit d = true := h d (by simp)
    simp only [List.cons_append, scanDigits, hd, if_true]
    show scanDigits (ds ++ rest) _ _ = _
    rw [ih rest _ _ (fun c hc => h c (by simp [hc]))]
    simp only [digitsValue, List.foldl_cons, List.length_cons]
    rw [show k + 1 + ds.length = k + (ds.length + 1) by omega]

theorem scanDigits_stop (c : Char) (rest : List Char) (acc k : Nat) (h : isdigit c = false) :
    scanDigits (c :: rest) acc k = (acc, k, c :: rest) := by
  simp [scanDigits, h]

theorem scanDigits_decDigits (fuel n : Nat) (hn : n < fuel) (c : Char) (rest : List Char)
    (hc : isdigit c = false) :
    scanDigits (decDigits fuel n ++ c :: rest) 0 0 =
      (n, (decDigits fuel n).length, c :: rest) := by
  rw [scanDigits_append _ _ _ _ (decDigits_isdigit fuel n), scanDigits_stop _ _ _ _ hc,
    digitsValue_decDigits fuel n hn]
  simp

theorem fmtNat_cons (n : Nat) : ∃ d ds, fmtNat n = d :: ds ∧ isdigit d = true := by
  unfold fmtNat
  cases h : decDigits (n + 1) n with
  | nil => exact absurd h (decDigits_ne_nil n n)
  | cons d ds =>
    refine ⟨d, ds, rfl, ?_⟩
    exact decDigits_isdigit (n + 1) n d (by simp [h])

theorem fmtNat_isdigit (n : Nat) (c : Char) (h : c ∈ fmtNat n) : isdigit c = true :=
  decDigits_isdigit _ _ c h

theorem scanDigits_fmtNat (n : Nat) (c : Char) (rest : List Char) (hc : isdigit c = false) :
    ∃ k, k ≠ 0 ∧ scanDigits (fmtNat n ++ c :: rest) 0 0 = (n, k, c :: rest) := by
  refine ⟨(fmtNat n).length, ?_, scanDigits_decDigits (n + 1) n (by omega) c rest hc⟩
  obtain ⟨d, ds, h, _⟩ := fmtNat_cons n
  simp [h]

theorem dropWhile_isspace_fmtNat (n : Nat) (rest : List Char) :
    (fmtNat n ++ rest).dropWhile isspace = fmtNat n ++ rest := by
  obtain ⟨d, ds, h, hd⟩ := fmtNat_cons n
  rw [h]
  simp [List.dropWhile, (isdigit_props d hd).2.2.2.2.2.2]

theorem scanSign_fmtNat (n : Nat) (rest : List Char) :
    scanSign (fmtNat n ++ rest) = (false, fmtNat n ++ rest) := by
  obtain ⟨d, ds, h, hd⟩ := fmtNat_cons n
  rw [h]
  have := isdigit_props d hd
  simp [scanSign, this.2.2.2.1, this.2.2.2.2.1]

/-- Reading back a `%d` numeral that is followed by a character other than a digit. -/
theorem scan_d_fmt_d (i : Int) (c : Char) (rest : List Char) (hc : isdigit c = false) :
    scan_d (fmt_d i ++ c :: rest) = some (i, c :: rest) := by
  obtain ⟨k, hk, hscan⟩ := scanDigits_fmtNat i.natAbs c rest hc
  unfold scan_d fmt_d
  by_cases hi : i < 0
  · simp only [hi, if_true, List.cons_append]
    have h1 : ('-' :: (fmtNat i.natAbs ++ c :: rest)).dropWhile isspace =
        '-' :: (fmtNat i.natAbs ++ c :: rest) := by
      have : isspace '-' = false := by decide
      simp [List.dropWhile, this]
    rw [h1]
    simp only [scanSign, if_true, hscan, hk, if_false]
    have : -((i.natAbs : Nat) : Int) = i := by omega
    rw [this]
  · simp only [hi, if_false]
    rw [dropWhile_isspace_fmtNat, scanSign_fmtNat, hscan]
    have : ((i.natAbs : Nat) : Int) = i := by omega
    simp only [hk, if_false, Bool.false_eq_true, this]

theorem scanDigits_two (a b : Nat) (ha : a < 10) (hb : b < 10) (rest : List Char) :
    scanDigits (digitChar a :: digitChar b :: ',' :: rest) 0 0 = (10 * a + b, 2, ',' :: rest) := by
  have hc : isdigit ',' = false := by decide
  simp [scanDigits, digitChar_isdigit, hc, digitVal_digitChar a ha, digitVal_digitChar b hb]

theorem scanExponent_comma (rest : List Char) :
    scanExponent (',' :: rest) = some (0, ',' :: rest) := by
  have h : ¬ ((',' : Char) = 'e' ∨ (',' : Char) = 'E') := by decide
  simp only [scanExponent, h, if_false]

theorem cents_value (n : Nat) :
    ((n / 100 : Nat) : ℚ) + ((10 * (n / 10 % 10) + n % 10 : Nat) : ℚ) / (10 : ℚ) ^ 2 =
      (n : ℚ) / 100 := by
  have h : n = 100 * (n / 100) + (10 * (n / 10 % 10) + n % 10) := by omega
  have h2 : (n : ℚ) =
      100 * ((n / 100 : Nat) : ℚ) + ((10 * (n / 10 % 10) + n % 10 : Nat) : ℚ) := by
    exact_mod_cast h
  rw [h2]
  ring

/-- Reading back the magnitude part of a `%.2f` numeral followed by a comma. -/
theorem scanMantissa_fmt (n : Nat) (rest : List Char) :
    scanMantissa (fmtNat (n / 100) ++
        '.' :: digitChar (n / 10 % 10) :: digitChar (n % 10) :: ',' :: rest) =
      some ((n : ℚ) / 100, ',' :: rest) := by
  have hdot : isdigit '.' = false := by decide
  obtain ⟨k, hk, hscan⟩ := scanDigits_fmtNat (n / 100) '.'
    (digitChar (n / 10 % 10) :: digitChar (n % 10) :: ',' :: rest) hdot
  unfold scanMantissa
  simp only [hscan, scanFraction, if_true, scanDigits_two _ _ (Nat.mod_lt _ (by norm_num : 10 > 0))
    (Nat.mod_lt _ (by norm_num : 10 > 0))]
  have hk2 : ¬ (k + 2 = 0) := by omega
  simp only [hk2, if_false]
  rw [cents_value n]

/-- Reading back a `%.2f` numeral that is followed by a comma gives the rounded value. -/
theorem scan_lf_fmt_2f (q : ℚ) (rest : List Char) :
    scan_lf (fmt_2f q ++ ',' :: rest) = some (round2 q, ',' :: rest) := by
  unfold scan_lf fmt_2f round2
  by_cases hq : q < 0
  · simp only [hq, if_true, List.cons_append, List.nil_append, List.append_assoc]
    have h1 : ∀ t : List Char, ('-' :: t).dropWhile isspace = '-' :: t := by
      intro t
      have : isspace '-' = false := by decide
      simp [List.dropWhile, this]
    rw [h1]
    simp only [scanSign, if_true, scanMantissa_fmt, scanExponent_comma, zpow_zero, mul_one]
  · simp only [hq, if_false, List.cons_append, List.nil_append, List.append_assoc]
    rw [dropWhile_isspace_fmtNat, scanSign_fmtNat]
    simp only [scanMantissa_fmt, scanExponent_comma, zpow_zero, mul_one, Bool.false_eq_true,
      if_false]

theorem fgets_loop_lines : ∀ (content : List Char) (room : Nat), content ≠ [] →
    (∀ l ∈ (lines content).head?, l.length ≤ room) →
    ∃ l rest, lines content = l :: lines rest ∧ fgets_loop room content = (l, rest) := by
  intro content
  induction content with
  | nil => intro room h; exact absurd rfl h
  | cons c s ih =>
    intro room _ hlen
    by_cases hc : c = '\n'
    · have hl : lines (c :: s) = [c] :: lines s := by simp [lines, hc]
      rw [hl] at hlen
      have h1 : 1 ≤ room := by simpa using hlen
      obtain ⟨r, rfl⟩ : ∃ r, room = r + 1 := ⟨room - 1, by omega⟩
      exact ⟨[c], s, hl, by simp [fgets_loop, hc]⟩
    · cases s with
      | nil =>
        have hl : lines [c] = [[c]] := by simp [lines, hc]
        rw [hl] at hlen
        have h1 : 1 ≤ room := by simpa using hlen
        obtain ⟨r, rfl⟩ : ∃ r, room = r + 1 := ⟨room - 1, by omega⟩
        refine ⟨[c], [], by simp [lines, hc], ?_⟩
        cases r <;> simp [fgets_loop, hc]
      | cons d t =>
        cases hls : lines (d :: t) with
        | nil =>
          exfalso
          simp only [lines] at hls
          split at hls
          · simp at hls
          · split at hls <;> simp at hls
        | cons l ls =>
          have hl : lines (c :: d :: t) = (c :: l) :: ls := by
            rw [lines, if_neg hc, hls]
          rw [hl] at hlen
          have h1 : l.length + 1 ≤ room := by simpa using hlen
          obtain ⟨r, rfl⟩ : ∃ r, room = r + 1 := ⟨room - 1, by omega⟩
          obtain ⟨l2, rest, h2, h3⟩ := ih r (by simp)
            (by rw [hls]; simpa using (by omega : l.length ≤ r))
          rw [hls] at h2
          have h4 : l = l2 := (List.cons.inj h2).1
          have h5 : ls = lines rest := (List.cons.inj h2).2
          subst h4
          refine ⟨c :: l, rest, by rw [hl, h5], ?_⟩
          simp [fgets_loop, hc, h3]

theorem fgets_loop_rest_length : ∀ (room : Nat) (s : List Char),
    (fgets_loop room s).2.length ≤ s.length := by
  intro room
  induction room with
  | zero => intro s; simp [fgets_loop]
  | succ r ih =>
    intro s
    cases s with
    | nil => simp [fgets_loop]
    | cons c t =>
      simp only [fgets_loop]
      split
      · simp
      · have := ih t
        simp only [List.length_cons]
        omega

theorem fgets_rest_length (room : Nat) (c : Char) (s : List Char) :
    (fgets_loop (room + 1) (c :: s)).2.length < (c :: s).length := by
  simp only [fgets_loop]
  split
  · simp
  · have := fgets_loop_rest_length room s
    simp only [List.length_cons]
    omega

theorem entries_take (menu : PizzaMenu) (l : List PizzaType) (h : menu.count = MAX_PIZZA_TYPES) :
    (menu.entries ++ l).take MAX_PIZZA_TYPES = menu.entries := by
  rw [List.take_append_of_le_length (by rw [entries_length, h])]
  rw [List.take_of_length_le (by rw [entries_length, h])]

/-- The reading loop appends the entries of the matching lines, up to the capacity. -/
theorem load_loop_entries : ∀ (fuel : Nat) (content : List Char) (menu : PizzaMenu),
    content.length < fuel → (∀ l ∈ lines content, l.length ≤ 99) →
    menu.count ≤ MAX_PIZZA_TYPES →
    (load_loop fuel content menu).entries =
        (menu.entries ++ (lines content).filterMap sscanf_entry).take MAX_PIZZA_TYPES ∧
      (load_loop fuel content menu).count ≤ MAX_PIZZA_TYPES := by
  intro fuel
  induction fuel with
  | zero => intro content menu h; omega
  | succ f ih =>
    intro content menu hfuel hlines hcount
    cases content with
    | nil =>
      simp only [load_loop, fgets, if_true, lines, List.filterMap_nil, List.append_nil]
      exact ⟨(List.take_of_length_le (by rw [entries_length]; exact hcount)).symm, hcount⟩
    | cons c s =>
      obtain ⟨l, rest, h1, h2⟩ := fgets_loop_lines (c :: s) 99 (by simp) (by
        intro l hl
        apply hlines l
        cases hls : lines (c :: s) with
        | nil => rw [hls] at hl; simp at hl
        | cons a b =>
          rw [hls] at hl
          simp only [List.head?_cons, Option.mem_def, Option.some.injEq] at hl
          simp [hl])
      have hrest : rest.length < f := by
        have := fgets_rest_length 98 c s
        rw [h2] at this
        simp only [List.length_cons] at this hfuel
        omega
      have hfg : fgets 100 (c :: s) = some (l, rest) := by
        simp only [fgets, if_false, reduceCtorEq]
        rw [← h2]
      have hlines2 : ∀ l2 ∈ lines rest, l2.length ≤ 99 := by
        intro l2 hl2
        apply hlines l2
        rw [h1]
        simp [hl2]
      rw [load_loop, hfg]
      simp only
      by_cases hlt : menu.count < MAX_PIZZA_TYPES
      · simp only [hlt, if_true, h1, List.filterMap_cons]
        cases hp : sscanf_entry l with
        | none =>
          simp only
          exact ih rest menu hrest hlines2 hcount
        | some p =>
          simp only
          have := ih rest { pizzas := store menu.pizzas menu.count p, count := menu.count + 1 }
            hrest hlines2 hlt
          rw [entries_store_count] at this
          simpa using this
      · simp only [hlt, if_false]
        have heq : menu.count = MAX_PIZZA_TYPES := by omega
        exact ⟨(entries_take menu _ heq).symm, hcount⟩

theorem fprintf_entry_eq (p : PizzaType) : fprintf_entry p = entry_body p ++ ['\n'] := by
  simp [fprintf_entry, entry_body]

theorem fmt_2f_chars (q : ℚ) (c : Char) (h : c ∈ fmt_2f q) : c ≠ '\x00' ∧ c ≠ '\n' := by
  unfold fmt_2f at h
  simp only [List.mem_append, List.mem_cons, List.mem_singleton] at h
  rcases h with (h | h) | h
  · split at h
    · rw [List.mem_singleton] at h
      subst h
      decide
    · simp at h
  · have := isdigit_props c (fmtNat_isdigit _ c h)
    exact ⟨this.1, this.2.1⟩
  · rcases h with h | h | h | h
    · subst h
      decide
    · have := isdigit_props c (h ▸ digitChar_isdigit _)
      exact ⟨this.1, this.2.1⟩
    · have := isdigit_props c (h ▸ digitChar_isdigit _)
      exact ⟨this.1, this.2.1⟩
    · simp at h

theorem fmt_d_chars (i : Int) (c : Char) (h : c ∈ fmt_d i) : c ≠ '\x00' ∧ c ≠ '\n' := by
  unfold fmt_d at h
  split at h
  · rw [List.mem_cons] at h
    rcases h with h | h
    · subst h
      decide
    · have := isdigit_props c (fmtNat_isdigit _ c h)
      exact ⟨this.1, this.2.1⟩
  · have := isdigit_props c (fmtNat_isdigit _ c h)
    exact ⟨this.1, this.2.1⟩

theorem entry_body_chars (p : PizzaType) (hn : storable_name p.name) (c : Char)
    (h : c ∈ entry_body p) : c ≠ '\x00' ∧ c ≠ '\n' := by
  unfold entry_body at h
  simp only [List.mem_append, List.mem_cons] at h
  rcases h with h | h | h | h | h
  · exact ⟨(hn.2 c h).2.2, (hn.2 c h).2.1⟩
  · subst h
    decide
  · exact fmt_2f_chars _ c h
  · subst h
    decide
  · exact fmt_d_chars _ c h

theorem scan_name_comma : ∀ (name rest : List Char), (∀ c ∈ name, c ≠ ',') →
    name.length ≤ 49 → scan_name (name ++ ',' :: rest) = (name, ',' :: rest) := by
  intro name rest hc hlen
  have h1 : (name ++ ',' :: rest).takeWhile (fun c => decide (c ≠ ',')) = name := by
    rw [List.takeWhile_append_of_pos (by simpa using hc)]
    simp [List.takeWhile]
  unfold scan_name
  rw [h1, List.take_of_length_le (by simp [MAX_PIZZA_NAME_LENGTH]; exact hlen)]
  simp

/-- Reading back a line written by `save_pizza_menu`. -/
theorem sscanf_entry_fprintf_entry (p : PizzaType) (hn : storable_name p.name)
    (hlen : p.name.length ≤ 49) :
    sscanf_entry (fprintf_entry p) =
      some { name := p.name, price := round2 p.price, available := p.available } := by
  have hnul : (fprintf_entry p).takeWhile (fun c => decide (c ≠ '\x00')) = fprintf_entry p := by
    rw [List.takeWhile_eq_self_iff]
    intro c hc
    rw [fprintf_entry_eq, List.mem_append, List.mem_singleton] at hc
    rcases hc with hc | hc
    · simpa using (entry_body_chars p hn c hc).1
    · subst hc
      decide
  unfold sscanf_entry
  rw [hnul]
  have hsn : scan_name (fprintf_entry p) =
      (p.name, ',' :: (fmt_2f p.price ++ ',' :: (fmt_d p.available ++ ['\n']))) :=
    scan_name_comma _ _ (fun c hc => (hn.2 c hc).1) hlen
  have hd : isdigit '\n' = false := by decide
  simp only [hsn, hn.1, if_false, if_true, scan_lf_fmt_2f, scan_d_fmt_d _ _ _ hd]

theorem lines_body : ∀ (body rest : List Char), (∀ c ∈ body, c ≠ '\n') →
    lines (body ++ '\n' :: rest) = (body ++ ['\n']) :: lines rest := by
  intro body
  induction body with
  | nil => intro rest _; simp [lines]
  | cons c b ih =>
    intro rest h
    have hc : c ≠ '\n' := h c (by simp)
    have := ih rest (fun d hd => h d (by simp [hd]))
    show lines (c :: (b ++ '\n' :: rest)) = _
    rw [lines, if_neg hc, this]
    rfl

theorem lines_save_loop (pizzas : Nat → PizzaType) : ∀ (todo i : Nat),
    (∀ j, i ≤ j → j < i + todo → storable_name (pizzas j).name) →
    lines (save_loop pizzas todo i) =
      (List.range' i todo).map (fun j => fprintf_entry (pizzas j)) := by
  intro todo
  induction todo with
  | zero => intro i _; simp [save_loop, lines]
  | succ n ih =>
    intro i h
    rw [save_loop, fprintf_entry_eq, List.append_assoc, List.singleton_append,
      lines_body _ _ (fun c hc => (entry_body_chars _ (h i (le_refl i) (by omega)) c hc).2),
      ih (i + 1) (fun j h1 h2 => h j (by omega) (by omega)), List.range'_succ]
    simp [fprintf_entry_eq]

theorem add_pizza_type_entries (menu : PizzaMenu) (name : List Char) (price : ℚ)
    (hc : menu.count < MAX_PIZZA_TYPES) (hn : ∀ p ∈ menu.entries, ¬ same_name p.name name) :
    (add_pizza_type menu name price).1.entries =
        menu.entries ++ [{ name := name, price := price, available := 1 }] ∧
      (add_pizza_type menu name price).1.count = menu.count + 1 := by
  have h1 : ¬ (menu.count ≥ MAX_PIZZA_TYPES) := by omega
  have h2 := (find_eq_neg_one_iff menu name).2 hn
  unfold add_pizza_type
  simp only [h1, h2, if_false, ne_eq, not_true_eq_false]
  exact ⟨entries_store_count menu _, trivial⟩

theorem init_default_menu_entries (menu : PizzaMenu) :
    (init_default_menu menu).entries = default_entries ∧ (init_default_menu menu).count = 6 := by
  have h0 : PizzaMenu.entries { menu with count := 0 } = [] := by simp [PizzaMenu.entries]
  have c0 : PizzaMenu.count { menu with count := 0 } = 0 := rfl
  obtain ⟨e1, c1⟩ := add_pizza_type_entries { menu with count := 0 } "Margherita".toList 10
    (by rw [c0]; decide) (by rw [h0]; decide)
  rw [h0] at e1
  rw [c0] at c1
  obtain ⟨e2, c2⟩ := add_pizza_type_entries _ "Pepperoni".toList (25 / 2)
    (by rw [c1]; decide) (by rw [e1]; decide)
  rw [e1] at e2
  rw [c1] at c2
  obtain ⟨e3, c3⟩ := add_pizza_type_entries _ "Hawaiian".toList 13
    (by rw [c2]; decide) (by rw [e2]; decide)
  rw [e2] at e3
  rw [c2] at c3
  obtain ⟨e4, c4⟩ := add_pizza_type_entries _ "Quattro Stagioni".toList (29 / 2)
    (by rw [c3]; decide) (by rw [e3]; decide)
  rw [e3] at e4
  rw [c3] at c4
  obtain ⟨e5, c5⟩ := add_pizza_type_entries _ "Vegetarian".toList (23 / 2)
    (by rw [c4]; decide) (by rw [e4]; decide)
  rw [e4] at e5
  rw [c4] at c5
  obtain ⟨e6, c6⟩ := add_pizza_type_entries _ "Meat Lovers".toList 16
    (by rw [c5]; decide) (by rw [e5]; decide)
  rw [e5] at e6
  rw [c5] at c6
  unfold init_default_menu
  simp only []
  rw [e6, c6]
  exact ⟨rfl, rfl⟩

theorem load_save_entries (menu target : PizzaMenu) (hcount : menu.count ≤ MAX_PIZZA_TYPES)
    (hnames : ∀ p ∈ menu.entries, p.name.length ≤ 49 ∧ storable_name p.name)
    (hlines : ∀ p ∈ menu.entries, (fprintf_entry p).length ≤ 99) :
    (load_pizza_menu target (save_pizza_menu menu true).1).1.entries =
      menu.entries.map reloaded := by
  have hn : ∀ j, 0 ≤ j → j < 0 + menu.count → storable_name (menu.pizzas j).name := by
    intro j _ hj
    exact (hnames _ ((mem_entries menu _).2 ⟨j, by omega, rfl⟩)).2
  have hl := lines_save_loop menu.pizzas menu.count 0 hn
  have hl2 : lines (save_loop menu.pizzas menu.count 0) = menu.entries.map fprintf_entry := by
    rw [hl, PizzaMenu.entries, List.range_eq_range', List.map_map]
    rfl
  have hfm : (menu.entries.map fprintf_entry).filterMap sscanf_entry =
      menu.entries.map reloaded := by
    rw [List.filterMap_map]
    rw [← List.filterMap_eq_map]
    apply List.filterMap_congr
    intro p hp
    simp only [Function.comp]
    exact sscanf_entry_fprintf_entry p (hnames p hp).2 (hnames p hp).1
  have hload := load_loop_entries ((save_loop menu.pizzas menu.count 0).length + 1)
    (save_loop menu.pizzas menu.count 0) { target with count := 0 } (by omega)
    (by
      rw [hl2]
      intro l hl3
      obtain ⟨p, hp, rfl⟩ := List.mem_map.1 hl3
      exact hlines p hp)
    (Nat.zero_le _)
  have h0 : PizzaMenu.entries { target with count := 0 } = [] := by simp [PizzaMenu.entries]
  simp only [save_pizza_menu, if_true, load_pizza_menu]
  rw [hload.1, h0, hl2, hfm, List.nil_append]
  apply List.take_of_length_le
  rw [List.length_map, entries_length]
  exact hcount

theorem cents_neg (q : ℚ) : cents (-q) = cents q := by
  unfold cents
  simp [Rat.neg_num, Rat.neg_den]

theorem cents_hundredths (n : Nat) : cents ((n : ℚ) / 100) = n := by
  have hden : 0 < ((n : ℚ) / 100).den := Rat.den_pos _
  have hnum : 0 ≤ ((n : ℚ) / 100).num := by
    rw [Rat.num_nonneg]
    positivity
  have h1 : ((n : ℚ) / 100) * (((n : ℚ) / 100).den : ℚ) = (((n : ℚ) / 100).num : ℚ) :=
    Rat.mul_den_eq_num _
  have h2 : (n : ℚ) * (((n : ℚ) / 100).den : ℚ) = 100 * (((n : ℚ) / 100).num : ℚ) := by
    rw [← h1]; ring
  have h3 : (n : Int) * (((n : ℚ) / 100).den : Int) = 100 * ((n : ℚ) / 100).num := by
    exact_mod_cast h2
  have h4 : ((n : ℚ) / 100).num.natAbs * 100 = n * ((n : ℚ) / 100).den := by
    zify
    rw [abs_of_nonneg hnum]
    linarith
  unfold cents
  simp only [h4]
  rw [Nat.mul_div_cancel _ hden, Nat.mul_mod_left]
  simp [hden]

theorem round2_round2 (q : ℚ) : round2 (round2 q) = round2 q := by
  have key : ∀ n : Nat, round2 ((n : ℚ) / 100) = (n : ℚ) / 100 := by
    intro n
    have : ¬ ((n : ℚ) / 100 < 0) := by
      have : (0 : ℚ) ≤ (n : ℚ) / 100 := by positivity
      linarith
    simp only [round2, this, if_false, cents_hundredths]
  have key2 : ∀ n : Nat, round2 (-((n : ℚ) / 100)) = -((n : ℚ) / 100) := by
    intro n
    by_cases h : -((n : ℚ) / 100) < 0
    · simp only [round2, h, if_true, cents_neg, cents_hundredths]
    · have h0 : (0 : ℚ) ≤ (n : ℚ) / 100 := by positivity
      have h1 : (n : ℚ) / 100 = 0 := by linarith
      rw [h1]
      simp [round2, cents]
  unfold round2
  split
  · exact key2 _
  · exact key _

theorem lines_store_count (order : PizzaOrder) (it : OrderItem) (total : ℚ) :
    PizzaOrder.lines { order with items := store order.items order.item_count it,
                                  total_amount := total,
                                  item_count := order.item_count + 1 } =
      order.lines ++ [it] := by
  simp only [PizzaOrder.lines, List.range_succ, List.map_append, List.map_cons, List.map_nil]
  congr 1
  · apply List.map_congr_left
    intro j hj
    have := List.mem_range.1 hj
    simp [store]
    omega
  · simp [store]

theorem accepted_append_added (log : List OrderMsg) (q : Int) (name : List Char) :
    accepted (log ++ [OrderMsg.added q name]) = accepted log + 1 := by
  simp [accepted]

theorem accepted_append_other (log : List OrderMsg) (m : OrderMsg)
    (h : ∀ q name, m ≠ OrderMsg.added q name) : accepted (log ++ [m]) = accepted log := by
  cases m with
  | added q name => exact absurd rfl (h q name)
  | not_available name => simp [accepted]
  | invalid_quantity => simp [accepted]
  | overflow => simp [accepted]

theorem order_iteration_invariant (MAX_QUANTITY : Int) (menu : PizzaMenu) (st : OrderState)
    (h : order_invariant st) :
    order_invariant (order_iteration MAX_QUANTITY menu st).state := by
  unfold order_iteration
  split
  · exact h
  · rename_i pizza_id in1 _
    split
    · exact h
    · simp only []
      split
      · exact ⟨h.1, by
          simp only [Iteration.state]
          rw [accepted_append_other _ _ (by intro q n; simp)]
          exact h.2⟩
      · split
        · exact ⟨h.1, by
            simp only [Iteration.state]
            rw [accepted_append_other _ _ (by intro q n; simp)]
            exact h.2⟩
        · split
          · exact ⟨h.1, by
              simp only [Iteration.state]
              rw [accepted_append_other _ _ (by intro q n; simp)]
              exact h.2⟩
          · split
            · exact ⟨h.1, by
                simp only [Iteration.state]
                rw [accepted_append_other _ _ (by intro q n; simp)]
                exact h.2⟩
            · have key : ∀ (it : OrderItem) (t : ℚ),
                  t = (it.quantity : ℚ) * it.unit_price →
                  PizzaOrder.lines_total { st.order with
                    items := store st.order.items st.order.item_count it,
                    total_amount := st.order.total_amount + t,
                    item_count := st.order.item_count + 1 } = st.order.total_amount + t := by
                intro it t ht
                unfold PizzaOrder.lines_total
                rw [lines_store_count]
                simp only [List.foldl_append, List.foldl_cons, List.foldl_nil]
                rw [ht, h.1]
                rfl
              split
              · refine ⟨?_, ?_⟩
                · simp only [Iteration.state]
                  symm
                  apply key
                  rfl
                · simp only [Iteration.state]
                  rw [accepted_append_added, ← h.2]
              · refine ⟨?_, ?_⟩
                · simp only [Iteration.state]
                  symm
                  apply key
                  rfl
                · simp only [Iteration.state]
                  rw [accepted_append_added, ← h.2]

theorem order_loop_invariant (MAX_QUANTITY : Int) (menu : PizzaMenu) :
    ∀ (fuel : Nat) (st : OrderState), order_invariant st →
      order_invariant (order_loop MAX_QUANTITY menu fuel st).1 := by
  intro fuel
  induction fuel with
  | zero => intro st h; exact h
  | succ f ih =>
    intro st h
    have hi := order_iteration_invariant MAX_QUANTITY menu st h
    unfold order_loop
    split
    · split
      · rename_i st1 heq
        rw [heq] at hi
        exact hi
      · rename_i st1 heq
        rw [heq] at hi
        exact hi
      · rename_i st1 heq
        rw [heq] at hi
        exact ih st1 hi
    · exact h

theorem order_start_invariant (order : PizzaOrder) (input : List (Option Int)) :
    order_invariant (order_start order input) := by
  simp [order_invariant, order_start, PizzaOrder.lines_total, PizzaOrder.lines, accepted]

theorem get_user_choice_length (min max : Int) :
    ∀ (input rest : List (Option Int)) (c : Int),
      get_user_choice min max input = some (c, rest) → rest.length < input.length := by
  intro input
  induction input with
  | nil => intro rest c h; simp [get_user_choice] at h
  | cons r t ih =>
    intro rest c h
    cases r with
    | none =>
      simp only [get_user_choice] at h
      have := ih rest c h
      simp only [List.length_cons]
      omega
    | some v =>
      simp only [get_user_choice] at h
      split at h
      · have := ih rest c h
        simp only [List.length_cons]
        omega
      · simp only [Option.some.injEq, Prod.mk.injEq] at h
        rw [← h.2]
        simp

theorem scanf_d_length (input : List (Option Int)) :
    (scanf_d input).2.length ≤ input.length := by
  cases input <;> simp [scanf_d]

theorem order_iteration_next_length (MAX_QUANTITY : Int) (menu : PizzaMenu) (st st1 : OrderState)
    (h : order_iteration MAX_QUANTITY menu st = Iteration.next st1) :
    st1.input.length < st.input.length := by
  unfold order_iteration at h
  split at h
  · simp at h
  · rename_i pizza_id in1 hid
    have h1 := get_user_choice_length _ _ _ _ _ hid
    split at h
    · simp at h
    · simp only [] at h
      split at h
      · simp only [Iteration.next.injEq] at h
        rw [← h]
        exact h1
      · split at h
        · rename_i in2 hq
          have h2 := scanf_d_length in1
          rw [hq] at h2
          simp only [Iteration.next.injEq] at h
          rw [← h]
          simp only at h2 ⊢
          omega
        · rename_i quantity in2 hq
          have h2 := scanf_d_length in1
          rw [hq] at h2
          simp only at h2
          split at h
          · simp only [Iteration.next.injEq] at h
            rw [← h]
            simp only
            omega
          · split at h
            · simp only [Iteration.next.injEq] at h
              rw [← h]
              simp only
              omega
            · split at h
              · simp at h
              · rename_i c in3 hc
                have h3 := get_user_choice_length _ _ _ _ _ hc
                simp only [Iteration.next.injEq] at h
                rw [← h]
                simp only
                omega

/-- The ordering loop does not depend on its fuel once that exceeds the length of the input. -/
theorem order_loop_fuel (MAX_QUANTITY : Int) (menu : PizzaMenu) :
    ∀ (fuel : Nat) (st : OrderState) (more : Nat), st.input.length < fuel →
      order_loop MAX_QUANTITY menu (fuel + more) st = order_loop MAX_QUANTITY menu fuel st := by
  intro fuel
  induction fuel with
  | zero => intro st more h; omega
  | succ f ih =>
    intro st more h
    rw [show f + 1 + more = (f + more) + 1 by omega]
    simp only [order_loop]
    split
    · cases hit : order_iteration MAX_QUANTITY menu st with
      | blocked st1 => rfl
      | left st1 => rfl
      | next st1 =>
        have := order_iteration_next_length MAX_QUANTITY menu st st1 hit
        exact ih st1 more (by omega)
    · rfl

/-- The reading loop does not depend on its fuel once that exceeds the length of the file. -/
theorem load_loop_fuel : ∀ (fuel : Nat) (content : List Char) (menu : PizzaMenu) (more : Nat),
    content.length < fuel →
      load_loop (fuel + more) content menu = load_loop fuel content menu := by
  intro fuel
  induction fuel with
  | zero => intro content menu more h; omega
  | succ f ih =>
    intro content menu more h
    rw [show f + 1 + more = (f + more) + 1 by omega]
    cases content with
    | nil => simp [load_loop, fgets]
    | cons c s =>
      have hrest : (fgets_loop 99 (c :: s)).2.length < f := by
        have : (fgets_loop 99 (c :: s)).2.length < (c :: s).length := fgets_rest_length 98 c s
        simp only [List.length_cons] at this h
        omega
      simp only [load_loop, fgets, if_false, reduceCtorEq]
      split
      · split
        · exact ih _ _ more hrest
        · exact ih _ _ more hrest
      · rfl

theorem tolower_toNat_ne_zero (c : Char) (h : c ≠ '\x00') : (tolower c).toNat ≠ 0 := by
  intro h0
  have h1 : tolower c = '\x00' := by
    apply Char.ext
    apply UInt32.ext
    simpa [Char.toNat, UInt32.toNat] using h0
  unfold tolower Char.toLower at h1
  simp only at h1
  split at h1
  · rename_i h2
    obtain ⟨n, hn⟩ : ∃ n, c.toNat = n := ⟨_, rfl⟩
    rw [hn] at h1 h2
    obtain ⟨h3, h4⟩ := h2
    interval_cases n <;> exact absurd h1 (by decide)
  · exact h h1

theorem toNat_sub_ne_zero (a b : Char) (h : a ≠ b) : (a.toNat : Int) - (b.toNat : Int) ≠ 0 := by
  intro h0
  apply h
  apply Char.ext
  apply UInt32.ext
  have : a.toNat = b.toNat := by omega
  simpa [Char.toNat, UInt32.toNat] using this

/-- On C strings (no NUL inside) `strcasecmp` returns zero exactly when the strings are equal
after `tolower`. -/
theorem strcasecmp_eq_zero_iff : ∀ (a b : List Char), (∀ c ∈ a, c ≠ '\x00') →
    (∀ c ∈ b, c ≠ '\x00') → (strcasecmp a b = 0 ↔ a.map tolower = b.map tolower) := by
  intro a
  induction a with
  | nil =>
    intro b _ hb
    cases b with
    | nil => simp [strcasecmp]
    | cons d t =>
      have := tolower_toNat_ne_zero d (hb d (by simp))
      simp only [strcasecmp, List.map_nil, List.map_cons]
      constructor
      · intro h; omega
      · intro h; simp at h
  | cons c s ih =>
    intro b ha hb
    cases b with
    | nil =>
      have := tolower_toNat_ne_zero c (ha c (by simp))
      simp only [strcasecmp, List.map_nil, List.map_cons]
      constructor
      · intro h; omega
      · intro h; simp at h
    | cons d t =>
      simp only [strcasecmp, List.map_cons]
      by_cases hcd : tolower c = tolower d
      · rw [if_pos hcd, ih t (fun x hx => ha x (by simp [hx])) (fun x hx => hb x (by simp [hx]))]
        simp [hcd]
      · rw [if_neg hcd]
        have := toNat_sub_ne_zero _ _ hcd
        constructor
        · intro h; exact absurd h this
        · intro h
          exact absurd (List.cons.inj h).1 hcd

/-- Three more catalogs that do not survive saving and loading: an empty name, a name with a
line break, and a line longer than the 99 bytes one `fgets` call reads. -/
theorem save_load_other_losses :
    (load_pizza_menu empty_name_menu (save_pizza_menu empty_name_menu true).1).1.entries = [] ∧
    (load_pizza_menu newline_name_menu (save_pizza_menu newline_name_menu true).1).1.entries =
      [{ name := "Cipolla".toList, price := 5, available := 1 }] ∧
    (fprintf_entry
      { name := List.replicate 49 'w', price := 2 ^ 150, available := 1 }).length = 102 ∧
    (load_pizza_menu wide_line_menu (save_pizza_menu wide_line_menu true).1).1.entries = [] := by
  decide!

theorem load_loop_count_le : ∀ (fuel : Nat) (content : List Char) (menu : PizzaMenu),
    menu.count ≤ MAX_PIZZA_TYPES → (load_loop fuel content menu).count ≤ MAX_PIZZA_TYPES := by
  intro fuel
  induction fuel with
  | zero => intro content menu h; exact h
  | succ f ih =>
    intro content menu h
    rw [load_loop]
    split
    · exact h
    · split
      · rename_i hlt
        split
        · exact ih _ _ hlt
        · exact ih _ _ h
      · exact h

/-- Whatever the file holds, and also when it cannot be opened, `load_pizza_menu` returns at
most 20 entries. -/
theorem load_pizza_menu_count_le (menu : PizzaMenu) (file : Option (List Char)) :
    (load_pizza_menu menu file).1.count ≤ MAX_PIZZA_TYPES := by
  cases file with
  | none =>
    have h := (init_default_menu_entries menu).2
    have e : load_pizza_menu menu none = (init_default_menu menu, 0) := by
      simp only [load_pizza_menu]
    rw [e]
    dsimp only
    rw [h]
    decide
  | some content =>
    exact load_loop_count_le _ _ _ (Nat.zero_le _)

theorem add_pizza_type_count_le (menu : PizzaMenu) (name : List Char) (price : ℚ)
    (h : menu.count ≤ MAX_PIZZA_TYPES) :
    (add_pizza_type menu name price).1.count ≤ MAX_PIZZA_TYPES := by
  unfold add_pizza_type
  split
  · exact h
  · split
    · exact h
    · rename_i h1 _
      simp only
      omega

theorem remove_pizza_type_count_le (menu : PizzaMenu) (name : List Char) :
    (remove_pizza_type menu name).1.count ≤ menu.count := by
  unfold remove_pizza_type
  simp only
  split
  · exact le_refl _
  · simp only
    omega

/-- Adding keeps the names pairwise different: an entry is stored only after
`find_pizza_by_name` found no entry of that name. -/
theorem unique_names_add (menu : PizzaMenu) (name : List Char) (price : ℚ)
    (h : unique_names menu) : unique_names (add_pizza_type menu name price).1 := by
  by_cases h1 : menu.count < MAX_PIZZA_TYPES
  · by_cases h2 : ∀ p ∈ menu.entries, ¬ same_name p.name name
    · unfold unique_names
      rw [(add_pizza_type_entries menu name price h1 h2).1, List.pairwise_append]
      refine ⟨h, List.pairwise_singleton _ _, ?_⟩
      intro p hp q hq
      rw [List.mem_singleton] at hq
      rw [hq]
      exact h2 p hp
    · have h3 : find_pizza_by_name menu name ≠ -1 := fun h4 =>
        h2 ((find_eq_neg_one_iff menu name).1 h4)
      have h4 : add_pizza_type menu name price = (menu, AddMsg.exists_already) := by
        have h5 : ¬ (menu.count ≥ MAX_PIZZA_TYPES) := by omega
        simp [add_pizza_type, h5, h3]
      rw [h4]
      exact h
  · have h4 : add_pizza_type menu name price = (menu, AddMsg.full) := by
      have h5 : menu.count ≥ MAX_PIZZA_TYPES := by omega
      simp [add_pizza_type, h5]
    rw [h4]
    exact h

/-- The entries after `remove_pizza_type`, found or not: the entries before without the first
one of the given name. -/
theorem remove_pizza_type_entries (menu : PizzaMenu) (name : List Char) :
    (remove_pizza_type menu name).1.entries =
      menu.entries.eraseP (fun p => decide (same_name p.name name)) := by
  have hdef : find_pizza_by_name menu name = find_loop menu.pizzas name menu.count 0 := rfl
  rcases find_loop_spec menu.pizzas name menu.count 0 with ⟨h1, h2⟩ | ⟨k, h1, _, h3, h4, h5⟩
  · have hrem : remove_pizza_type menu name = (menu, RemoveMsg.not_found) := by
      simp [remove_pizza_type, hdef, h1]
    rw [hrem, List.eraseP_of_forall_not]
    intro p hp
    obtain ⟨j, hj, rfl⟩ := (mem_entries menu p).1 hp
    simpa using h2 j (Nat.zero_le j) (by omega)
  · have hkc : k < menu.count := by omega
    have hne : ¬ ((k : Int) = -1) := by omega
    have hrem : remove_pizza_type menu name =
        ({ pizzas := shift_loop (menu.count - 1 - k) k menu.pizzas, count := menu.count - 1 },
          RemoveMsg.removed) := by
      simp [remove_pizza_type, hdef, h1, hne]
    have hlen : k < menu.entries.length := by rw [entries_length]; exact hkc
    rw [hrem, eraseP_eq_eraseIdx_first _ menu.entries k hlen
      (by simpa [PizzaMenu.entries] using h4)
      (by
        intro j hj hjk
        simpa [PizzaMenu.entries] using h5 j (Nat.zero_le j) hjk)]
    apply List.ext_getElem
    · rw [List.length_eraseIdx_of_lt hlen]
      simp [PizzaMenu.entries]
    · intro j hj1 hj2
      rw [List.getElem_eraseIdx]
      simp only [PizzaMenu.entries, List.getElem_map, List.getElem_range, shift_loop_apply]
      simp only [PizzaMenu.entries, List.length_map, List.length_range] at hj1
      by_cases hjk : j < k
      · have : ¬ (k ≤ j ∧ j < k + (menu.count - 1 - k)) := by omega
        simp [hjk, this]
      · have : k ≤ j ∧ j < k + (menu.count - 1 - k) := by omega
        simp [hjk, this]

/-- Removing keeps the names pairwise different. -/
theorem unique_names_remove (menu : PizzaMenu) (name : List Char) (h : unique_names menu) :
    unique_names (remove_pizza_type menu name).1 := by
  unfold unique_names
  rw [remove_pizza_type_entries]
  exact List.Pairwise.sublist (List.eraseP_sublist _) h

/-- The catalog invariant is kept by every sequence of additions and removals. -/
theorem run_mutations_invariant : ∀ (ops : List Mutation) (menu : PizzaMenu),
    catalog_invariant menu → catalog_invariant (run_mutations menu ops) := by
  intro ops
  induction ops with
  | nil => intro menu h; exact h
  | cons op rest ih =>
    intro menu h
    cases op with
    | add name price =>
      exact ih _ ⟨add_pizza_type_count_le menu name price h.1,
        unique_names_add menu name price h.2⟩
    | remove name =>
      exact ih _ ⟨le_trans (remove_pizza_type_count_le menu name) h.1,
        unique_names_remove menu name h.2⟩

/-- The count stays within the capacity through every sequence of additions and removals. -/
theorem run_mutations_count_le : ∀ (ops : List Mutation) (menu : PizzaMenu),
    menu.count ≤ MAX_PIZZA_TYPES → (run_mutations menu ops).count ≤ MAX_PIZZA_TYPES := by
  intro ops
  induction ops with
  | nil => intro menu h; exact h
  | cons op rest ih =>
    intro menu h
    cases op with
    | add name price => exact ih _ (add_pizza_type_count_le menu name price h)
    | remove name => exact ih _ (le_trans (remove_pizza_type_count_le menu name) h)

/-- The count half of the catalog invariant holds in every session: whatever the file holds
(or when it cannot be opened), after loading and any sequence of additions and removals the
catalog has at most 20 entries. -/
theorem session_count_le (menu : PizzaMenu) (file : Option (List Char)) (ops : List Mutation) :
    (run_mutations (load_pizza_menu menu file).1 ops).count ≤ MAX_PIZZA_TYPES :=
  run_mutations_count_le ops _ (load_pizza_menu_count_le menu file)

/-- The default catalog satisfies the catalog invariant. -/
theorem init_default_menu_invariant (menu : PizzaMenu) :
    catalog_invariant (init_default_menu menu) := by
  obtain ⟨he, hc⟩ := init_default_menu_entries menu
  refine ⟨by rw [hc]; decide, ?_⟩
  unfold unique_names
  rw [he]
  decide

/-- A session that starts from the default catalog keeps the catalog invariant. -/
theorem session_invariant_from_defaults (menu : PizzaMenu) (ops : List Mutation) :
    catalog_invariant (run_mutations (init_default_menu menu) ops) :=
  run_mutations_invariant ops _ (init_default_menu_invariant menu)

/-- A session keeps the catalog invariant whenever the catalog it loaded has no two names equal
ignoring case. -/
theorem session_invariant_of_unique_load (menu : PizzaMenu) (file : Option (List Char))
    (ops : List Mutation) (h : unique_names (load_pizza_menu menu file).1) :
    catalog_invariant (run_mutations (load_pizza_menu menu file).1 ops) :=
  run_mutations_invariant ops _ ⟨load_pizza_menu_count_le menu file, h⟩

/-- A catalog that satisfies the invariant can come back from its own file with a name twice:
`salami,9,0` is written as the line `salami,9,0,7.00,1`, which reads back as the entry
`salami` with price 9. -/
theorem save_load_alias :
    catalog_invariant alias_menu ∧
    alias_menu.entries =
      [{ name := "Salami".toList, price := 8, available := 1 },
        { name := "salami,9,0".toList, price := 7, available := 1 }] ∧
    (load_pizza_menu (menu_of []) (save_pizza_menu alias_menu true).1).1.entries =
      [{ name := "Salami".toList, price := 8, available := 1 },
        { name := "salami".toList, price := 9, available := 0 }] ∧
    ¬ catalog_invariant (load_pizza_menu (menu_of []) (save_pizza_menu alias_menu true).1).1 := by
  decide!

/-! ## The claims -/

/-- C1, counterexample: a catalog of one entry named `Ham, Cheese` (11 characters) is written as
the line `Ham, Cheese,12.00,1`; reading that line back stops the name at the first comma, fails
on the price and skips the line, so the loaded catalog has no entry where the saved one had
one. -/
theorem save_load_comma_name :
    comma_menu.count ≤ 20 ∧ (∀ p ∈ comma_menu.entries, p.name.length ≤ 49) ∧
      (save_pizza_menu comma_menu true).1 = some "Ham, Cheese,12.00,1\n".toList ∧
      (load_pizza_menu comma_menu (save_pizza_menu comma_menu true).1).1.count = 0 ∧
      comma_menu.count = 1 := by
  decide!

/-- C1, as amended: for every catalog of at most 20 entries whose names have at most 49
characters, are not empty and contain no comma, no line break (and, being C strings, no NUL),
and whose written lines have at most 99 bytes each, saving succeeds and loading the written
text gives a catalog with the same number of entries and, position by position, the same name,
the price rounded to two decimals (so the same price at two-decimal precision) and the same
`available` flag. -/
theorem save_load_roundtrip (menu target : PizzaMenu) (hcount : menu.count ≤ 20)
    (hnames : ∀ p ∈ menu.entries, p.name.length ≤ 49 ∧ storable_name p.name)
    (hlines : ∀ p ∈ menu.entries, (fprintf_entry p).length ≤ 99) :
    (save_pizza_menu menu true).2 = 1 ∧
    (load_pizza_menu target (save_pizza_menu menu true).1).2 = 1 ∧
    (load_pizza_menu target (save_pizza_menu menu true).1).1.count = menu.count ∧
    (load_pizza_menu target (save_pizza_menu menu true).1).1.entries =
      menu.entries.map
        (fun p => { name := p.name, price := round2 p.price, available := p.available }) ∧
    (load_pizza_menu target (save_pizza_menu menu true).1).1.entries.map
        (fun p => round2 p.price) = menu.entries.map (fun p => round2 p.price) := by
  have h := load_save_entries menu target hcount hnames hlines
  refine ⟨rfl, rfl, ?_, h, ?_⟩
  · rw [← entries_length, h, List.length_map, entries_length]
  · rw [h, List.map_map]
    apply List.map_congr_left
    intro p _
    simp only [Function.comp, reloaded, round2_round2]

/-- C1, witness: the round trip of a three-entry catalog with prices 10, 13.115 and 1/3. -/
theorem save_load_roundtrip_witness :
    (load_pizza_menu comma_menu (save_pizza_menu sample_menu true).1).1.entries =
      [{ name := "Margherita".toList, price := 10, available := 1 },
        { name := "Quattro Formaggi".toList, price := 1312 / 100, available := 0 },
        { name := "calzone (XL)".toList, price := 33 / 100, available := -7 }] := by
  have h := (save_load_roundtrip sample_menu comma_menu (by decide) (by decide)
    (by decide!)).2.2.2.1
  rw [h]
  decide!

/-- C2: if no two entries of a catalog have names equal ignoring case, then after
`add_pizza_type`, with any name and price and whether the entry was added or refused, still no
two entries have names equal ignoring case. -/
theorem add_pizza_type_unique (menu : PizzaMenu) (name : List Char) (price : ℚ)
    (h : unique_names menu) : unique_names (add_pizza_type menu name price).1 := by
  unfold add_pizza_type
  by_cases h1 : menu.count ≥ MAX_PIZZA_TYPES
  · simpa [h1] using h
  · by_cases h2 : find_pizza_by_name menu name = -1
    · simp only [h1, h2, if_false, ne_eq, not_true_eq_false]
      unfold unique_names
      rw [entries_store_count, List.pairwise_append]
      refine ⟨h, List.pairwise_singleton _ _, ?_⟩
      intro p hp q hq
      rw [List.mem_singleton] at hq
      subst hq
      exact (find_eq_neg_one_iff menu name).1 h2 p hp
    · simpa [h1, h2] using h

/-- C2, witness: adding a name already present in another case, and adding a new name. -/
theorem add_pizza_type_unique_witness :
    unique_names sample_menu ∧
      unique_names (add_pizza_type sample_menu "MARGHERITA".toList 11).1 ∧
      unique_names (add_pizza_type sample_menu "Diavola".toList 11).1 :=
  ⟨by decide, add_pizza_type_unique sample_menu "MARGHERITA".toList 11 (by decide),
    add_pizza_type_unique sample_menu "Diavola".toList 11 (by decide)⟩

/-- C3: a refused mutation leaves the catalog as it was. `add_pizza_type` on a catalog of 20
entries, `add_pizza_type` with a name equal ignoring case to the name of an entry, and
`remove_pizza_type` with a name that no entry has ignoring case, each report the refusal and
return the same catalog: the same count and the same entries in the same order. -/
theorem rejected_mutation_unchanged (menu : PizzaMenu) (name : List Char) (price : ℚ) :
    (menu.count = 20 →
      (add_pizza_type menu name price).2 = AddMsg.full ∧
      (add_pizza_type menu name price).1 = menu ∧
      (add_pizza_type menu name price).1.count = menu.count ∧
      (add_pizza_type menu name price).1.entries = menu.entries) ∧
    ((∃ p ∈ menu.entries, same_name p.name name) →
      (add_pizza_type menu name price).2 ≠ AddMsg.added ∧
      (add_pizza_type menu name price).1 = menu ∧
      (add_pizza_type menu name price).1.count = menu.count ∧
      (add_pizza_type menu name price).1.entries = menu.entries) ∧
    ((∀ p ∈ menu.entries, ¬ same_name p.name name) →
      (remove_pizza_type menu name).2 = RemoveMsg.not_found ∧
      (remove_pizza_type menu name).1 = menu ∧
      (remove_pizza_type menu name).1.count = menu.count ∧
      (remove_pizza_type menu name).1.entries = menu.entries) := by
  refine ⟨?_, ?_, ?_⟩
  · intro h
    have h1 : add_pizza_type menu name price = (menu, AddMsg.full) := by
      simp [add_pizza_type, h, MAX_PIZZA_TYPES]
    rw [h1]
    exact ⟨rfl, rfl, rfl, rfl⟩
  · intro h
    have h2 : find_pizza_by_name menu name ≠ -1 := by
      intro h3
      obtain ⟨p, hp, hs⟩ := h
      exact (find_eq_neg_one_iff menu name).1 h3 p hp hs
    by_cases h1 : menu.count ≥ MAX_PIZZA_TYPES
    · have h3 : add_pizza_type menu name price = (menu, AddMsg.full) := by
        simp [add_pizza_type, h1]
      rw [h3]
      exact ⟨fun h4 => AddMsg.noConfusion h4, rfl, rfl, rfl⟩
    · have h3 : add_pizza_type menu name price = (menu, AddMsg.exists_already) := by
        simp [add_pizza_type, h1, h2]
      rw [h3]
      exact ⟨fun h4 => AddMsg.noConfusion h4, rfl, rfl, rfl⟩
  · intro h
    have h2 := (find_eq_neg_one_iff menu name).2 h
    have h3 : remove_pizza_type menu name = (menu, RemoveMsg.not_found) := by
      simp [remove_pizza_type, h2]
    rw [h3]
    exact ⟨rfl, rfl, rfl, rfl⟩

/-- C3, witness: a full catalog, a duplicate name and a name to remove that is absent. -/
theorem rejected_mutation_unchanged_witness :
    (full_menu.count = 20 ∧
      (add_pizza_type full_menu "Diavola".toList 11).1.entries = full_menu.entries) ∧
    ((∃ p ∈ sample_menu.entries, same_name p.name "MARGHERITA".toList) ∧
      (add_pizza_type sample_menu "MARGHERITA".toList 11).1.entries = sample_menu.entries) ∧
    ((∀ p ∈ abc_menu.entries, ¬ same_name p.name "Z".toList) ∧
      (remove_pizza_type abc_menu "Z".toList).1.entries = abc_menu.entries) :=
  ⟨⟨rfl, ((rejected_mutation_unchanged full_menu "Diavola".toList 11).1 rfl).2.2.2⟩,
    ⟨by decide,
      ((rejected_mutation_unchanged sample_menu "MARGHERITA".toList 11).2.1
        (by decide)).2.2.2⟩,
    ⟨by decide, ((rejected_mutation_unchanged abc_menu "Z".toList 0).2.2 (by decide)).2.2.2⟩⟩

/-- C4: when some entry has the given name ignoring case, `remove_pizza_type` decreases the
count by exactly one, and the entries afterwards are the entries before with the first such
entry deleted, the others unchanged and in their order. -/
theorem remove_pizza_type_found (menu : PizzaMenu) (name : List Char)
    (h : ∃ p ∈ menu.entries, same_name p.name name) :
    (remove_pizza_type menu name).1.count + 1 = menu.count ∧
    (remove_pizza_type menu name).1.entries =
      menu.entries.eraseP (fun p => decide (same_name p.name name)) ∧
    (remove_pizza_type menu name).2 = RemoveMsg.removed := by
  have hne : find_pizza_by_name menu name ≠ -1 := by
    intro h3
    obtain ⟨p, hp, hs⟩ := h
    exact (find_eq_neg_one_iff menu name).1 h3 p hp hs
  have hspec := find_loop_spec menu.pizzas name menu.count 0
  have hdef : find_pizza_by_name menu name = find_loop menu.pizzas name menu.count 0 := rfl
  rcases hspec with ⟨h1, _⟩ | ⟨k, h1, _, h3, h4, h5⟩
  · exact absurd (hdef.trans h1) hne
  · have hk : find_pizza_by_name menu name = (k : Int) := hdef.trans h1
    have hkc : k < menu.count := by omega
    have hrem : remove_pizza_type menu name =
        ({ pizzas := shift_loop (menu.count - 1 - k) k menu.pizzas, count := menu.count - 1 },
          RemoveMsg.removed) := by
      unfold remove_pizza_type
      simp only [hk]
      have : ¬ ((k : Int) = -1) := by omega
      simp [this]
    rw [hrem]
    refine ⟨by simp; omega, ?_, rfl⟩
    have hlen : k < menu.entries.length := by rw [entries_length]; exact hkc
    rw [eraseP_eq_eraseIdx_first _ menu.entries k hlen]
    · apply List.ext_getElem
      · rw [List.length_eraseIdx_of_lt hlen]
        simp [PizzaMenu.entries]
      · intro j hj1 hj2
        rw [List.getElem_eraseIdx]
        simp only [PizzaMenu.entries, List.getElem_map, List.getElem_range, shift_loop_apply]
        simp only [PizzaMenu.entries, List.length_map, List.length_range] at hj1
        by_cases hjk : j < k
        · have : ¬ (k ≤ j ∧ j < k + (menu.count - 1 - k)) := by omega
          simp [hjk, this]
        · have : k ≤ j ∧ j < k + (menu.count - 1 - k) := by omega
          simp [hjk, this]
    · simpa [PizzaMenu.entries] using h4
    · intro j hj hjk
      have := h5 j (by omega) hjk
      simpa [PizzaMenu.entries] using this

/-- C4, witness: removing `b` from the catalog `[A, B, C]` leaves `[A, C]`. -/
theorem remove_pizza_type_found_witness :
    (remove_pizza_type abc_menu "b".toList).1.count = 2 ∧
      (remove_pizza_type abc_menu "b".toList).1.entries =
        [{ name := "A".toList, price := 8, available := 1 },
          { name := "C".toList, price := 10, available := 0 }] := by
  have h := remove_pizza_type_found abc_menu "b".toList (by decide)
  refine ⟨?_, ?_⟩
  · have h1 := h.1
    have h2 : abc_menu.count = 3 := rfl
    omega
  · rw [h.2.1]
    decide

/-- C5, counterexample: when the file cannot be opened, `load_pizza_menu` called on an empty
catalog returns 0 with a catalog of six entries, not with an empty one. -/
theorem load_unopenable_not_empty :
    (load_pizza_menu (menu_of []) none).2 = 0 ∧
      (load_pizza_menu (menu_of []) none).1.count = 6 := by
  decide!

/-- C5, as amended: when the file cannot be opened, `load_pizza_menu` returns 0 together with
the default catalog of six entries, which it seeds itself through `init_default_menu`; nothing
is left for the caller to seed. -/
theorem load_unopenable_seeds_defaults (menu : PizzaMenu) :
    load_pizza_menu menu none = (init_default_menu menu, 0) ∧
    (load_pizza_menu menu none).1.count = 6 ∧
    (load_pizza_menu menu none).1.entries = default_entries := by
  have h := init_default_menu_entries menu
  have e : load_pizza_menu menu none = (init_default_menu menu, 0) := by
    simp only [load_pizza_menu]
  rw [e]
  dsimp only
  exact ⟨rfl, h.2, h.1⟩

/-- C7: in every state the ordering loop of `create_order` reaches from the empty order, and in
every order `create_order` returns, `total_amount` is the sum of `quantity × unit_price` over the
stored lines (added up in their order, as the code accumulates it) and `item_count` is the
number of line items accepted. -/
theorem create_order_total (MAX_QUANTITY : Int) (menu : PizzaMenu) (order : PizzaOrder)
    (input : List (Option Int)) :
    (∀ fuel : Nat,
      (order_loop MAX_QUANTITY menu fuel (order_start order input)).1.order.total_amount =
          (order_loop MAX_QUANTITY menu fuel (order_start order input)).1.order.lines_total ∧
        (order_loop MAX_QUANTITY menu fuel (order_start order input)).1.order.item_count =
          accepted (order_loop MAX_QUANTITY menu fuel (order_start order input)).1.log) ∧
    (∀ result rest log, create_order MAX_QUANTITY menu order input = some (result, rest, log) →
      result.total_amount = result.lines_total ∧ result.item_count = accepted log) := by
  have hloop := fun fuel =>
    order_loop_invariant MAX_QUANTITY menu fuel _ (order_start_invariant order input)
  refine ⟨hloop, ?_⟩
  intro result rest log h
  have hinv := hloop (input.length + 1)
  unfold create_order at h
  split at h
  · exact absurd h (by simp)
  · rename_i st heq
    rw [heq] at hinv
    split at h
    · simp only [Option.some.injEq, Prod.mk.injEq] at h
      obtain ⟨h1, _, h3⟩ := h
      subst h1 h3
      exact hinv
    · split at h
      · simp only [Option.some.injEq, Prod.mk.injEq] at h
        obtain ⟨h1, _, h3⟩ := h
        subst h1 h3
        exact hinv
      · split at h
        · simp only [Option.some.injEq, Prod.mk.injEq] at h
          obtain ⟨h1, _, h3⟩ := h
          subst h1 h3
          exact hinv
        · simp only [Option.some.injEq, Prod.mk.injEq] at h
          obtain ⟨h1, _, h3⟩ := h
          subst h1 h3
          exact hinv

/-- C7, witness: a session that orders 3 Pepperoni and 1 Meat Lovers returns a total of
53.50 over 2 lines. -/
theorem create_order_total_witness :
    ∃ result rest log,
      create_order 10 (menu_of default_entries) stale_order sample_input =
        some (result, rest, log) ∧
      result.total_amount = result.lines_total ∧ result.item_count = accepted log ∧
      result.total_amount = 107 / 2 ∧ result.item_count = 2 := by
  have hv : (create_order 10 (menu_of default_entries) stale_order sample_input).map
      (fun r => (r.1.total_amount, r.1.item_count)) = some (107 / 2, 2) := by decide!
  cases h : create_order 10 (menu_of default_entries) stale_order sample_input with
  | none =>
    rw [h] at hv
    exact absurd hv (by simp)
  | some r =>
    obtain ⟨result, rest, log⟩ := r
    rw [h] at hv
    simp only [Option.map_some', Option.some.injEq, Prod.mk.injEq] at hv
    have ht := (create_order_total 10 (menu_of default_entries) stale_order sample_input).2
      result rest log h
    exact ⟨result, rest, log, rfl, ht.1, ht.2, hv.1, hv.2⟩

/-- C9: `calculate_bill_split` never divides by zero. With `item_count > 0` and
`num_people > 0` it prints `total_amount / num_people` as the cost per person (12.50 for a total
of 37.50 and 3 people); with `item_count = 0` or `num_people ≤ 0` it prints the error line and
does not divide. -/
theorem calculate_bill_split_safe (order : PizzaOrder) :
    calculate_bill_split order ≠ none ∧
    (order.item_count > 0 ∧ order.num_people > 0 →
      calculate_bill_split order =
        some (SplitOutput.results order.total_amount order.num_people
          (order.total_amount / (order.num_people : ℚ)))) ∧
    (order.item_count = 0 ∨ order.num_people ≤ 0 →
      calculate_bill_split order = some SplitOutput.invalid) ∧
    (order.item_count > 0 → order.total_amount = 75 / 2 → order.num_people = 3 →
      calculate_bill_split order = some (SplitOutput.results (75 / 2) 3 (25 / 2))) := by
  have valid : order.item_count > 0 ∧ order.num_people > 0 →
      calculate_bill_split order =
        some (SplitOutput.results order.total_amount order.num_people
          (order.total_amount / (order.num_people : ℚ))) := by
    intro h
    have h1 : ¬ (order.item_count = 0 ∨ order.num_people ≤ 0) := by omega
    have h2 : ¬ ((order.num_people : ℚ) = 0) := by
      have : order.num_people ≠ 0 := by omega
      exact_mod_cast this
    simp only [calculate_bill_split, h1, if_false, divide, h2, Option.map_some']
  have invalid : order.item_count = 0 ∨ order.num_people ≤ 0 →
      calculate_bill_split order = some SplitOutput.invalid := by
    intro h
    simp only [calculate_bill_split, h, if_true]
  refine ⟨?_, valid, invalid, ?_⟩
  · by_cases h : order.item_count = 0 ∨ order.num_people ≤ 0
    · rw [invalid h]
      simp
    · rw [valid (by omega)]
      simp
  · intro h1 h2 h3
    rw [valid ⟨h1, by omega⟩, h2, h3]
    norm_num

/-- C9, witness: 37.50 split among 3 people, and a party of 0 people. -/
theorem calculate_bill_split_safe_witness :
    calculate_bill_split
        { items := fun _ =>
            { pizza_name := "Pepperoni".toList, quantity := 3, unit_price := 25 / 2 },
          item_count := 1, total_amount := 75 / 2, num_people := 3 } =
      some (SplitOutput.results (75 / 2) 3 (25 / 2)) ∧
    calculate_bill_split
        { items := fun _ => { pizza_name := "Margherita".toList, quantity := 1, unit_price := 10 },
          item_count := 1, total_amount := 10, num_people := 0 } =
      some SplitOutput.invalid :=
  ⟨(calculate_bill_split_safe _).2.2.2 (by decide) rfl rfl,
    (calculate_bill_split_safe _).2.2.1 (Or.inr (by decide))⟩

/-- C10: whatever the menu held before, `init_default_menu` leaves exactly the six entries
Margherita 10.00, Pepperoni 12.50, Hawaiian 13.00, Quattro Stagioni 14.50, Vegetarian 11.50,
Meat Lovers 16.00, in this order and all available; saving that catalog and loading the written
text gives exactly these six entries again, in the same order. -/
theorem default_menu_roundtrip (menu target : PizzaMenu) :
    (init_default_menu menu).count = 6 ∧
    (init_default_menu menu).entries =
      [ { name := "Margherita".toList, price := 10, available := 1 },
        { name := "Pepperoni".toList, price := 25 / 2, available := 1 },
        { name := "Hawaiian".toList, price := 13, available := 1 },
        { name := "Quattro Stagioni".toList, price := 29 / 2, available := 1 },
        { name := "Vegetarian".toList, price := 23 / 2, available := 1 },
        { name := "Meat Lovers".toList, price := 16, available := 1 } ] ∧
    (save_pizza_menu (init_default_menu menu) true).2 = 1 ∧
    (load_pizza_menu target (save_pizza_menu (init_default_menu menu) true).1).2 = 1 ∧
    (load_pizza_menu target (save_pizza_menu (init_default_menu menu) true).1).1.count = 6 ∧
    (load_pizza_menu target (save_pizza_menu (init_default_menu menu) true).1).1.entries =
      (init_default_menu menu).entries := by
  obtain ⟨he, hc⟩ := init_default_menu_entries menu
  have h := load_save_entries (init_default_menu menu) target (by rw [hc]; decide)
    (by rw [he]; decide) (by rw [he]; decide!)
  have h2 : (load_pizza_menu target (save_pizza_menu (init_default_menu menu) true).1).1.entries =
      (init_default_menu menu).entries := by
    rw [h, he]
    decide!
  refine ⟨hc, he, rfl, rfl, ?_, h2⟩
  rw [← entries_length, h2, he]
  rfl

/-- C11, the code at the failing input: the file with the lines `Margherita,10.00,1` and
`MARGHERITA,12.50,0` is loaded as a catalog of two entries although their names are equal
ignoring case, because `load_pizza_menu` stores a line without looking for an entry of that
name as `add_pizza_type` does. The catalog invariant fails right after the load; a removal
of `margherita` deletes only the first of the two, and a later addition leaves both. -/
theorem session_duplicate_names :
    (load_pizza_menu (menu_of []) (some duplicate_file)).2 = 1 ∧
    (run_mutations (load_pizza_menu (menu_of []) (some duplicate_file)).1 []).entries =
      [{ name := "Margherita".toList, price := 10, available := 1 },
        { name := "MARGHERITA".toList, price := 25 / 2, available := 0 }] ∧
    same_name "Margherita".toList "MARGHERITA".toList ∧
    ¬ catalog_invariant
      (run_mutations (load_pizza_menu (menu_of []) (some duplicate_file)).1 []) ∧
    (run_mutations (load_pizza_menu (menu_of []) (some duplicate_file)).1
        [Mutation.remove "margherita".toList]).entries =
      [{ name := "MARGHERITA".toList, price := 25 / 2, available := 0 }] ∧
    ¬ catalog_invariant (run_mutations (load_pizza_menu (menu_of []) (some duplicate_file)).1
        [Mutation.add "Diavola".toList 11]) := by
  decide!

end Pizza
